import Mathlib

/-!
# Verification of the vue3Core reactivity and scheduler core

Shallow embedding of the effect engine (`effect.ts`), the target-map
`track`/`trigger` layer (`reactiveEffect.ts`), the proxy trap layer
(`baseHandlers.ts`) and the microtask scheduler (`scheduler.ts`),
together with proofs of the testable properties stated in the spec.
-/

/-! ## Effect engine (`effect.ts`)

We model a single `ReactiveEffect` and the dependency bookkeeping that
`run()` performs.  A `Dep` is identified by a natural number; since only
one effect is under consideration, each dep's `Map<effect, trackId>`
collapses to the optional trackId it stores for this effect
(`depEntry`).  The dep's `cleanup()` hook (removal from the target map
when its size reaches zero) does not affect this effect's bookkeeping
and is not modelled. -/

structure EffState where
  trackId : Nat
  depsLength : Nat
  deps : List Nat
  depEntry : Nat → Option Nat

/-- Pointwise update of the per-dep stored trackId for this effect. -/
def setEntry (f : Nat → Option Nat) (d : Nat) (v : Option Nat) : Nat → Option Nat :=
  fun x => if x = d then v else f x

/-- `preCleanupEffect`: `effect._trackId++; effect._depsLength = 0`. -/
def preCleanupEffect (s : EffState) : EffState :=
  { s with trackId := s.trackId + 1, depsLength := 0 }

/-- `cleanupDepEffect(dep, effect)`: delete the dep's entry for the effect
when the stored trackId differs from the effect's current `_trackId`
(`dep.size === 0 → dep.cleanup()` only touches the target map). -/
def cleanupDepEffect (s : EffState) (d : Nat) : EffState :=
  match s.depEntry d with
  | some tid => if s.trackId ≠ tid then { s with depEntry := setEntry s.depEntry d none } else s
  | none => s

/-- `trackEffect(effect, dep)`: when `dep.get(effect) !== effect._trackId`,
store the current trackId in the dep, reconcile the slot
`effect.deps[_depsLength]` (cleaning a differing old dep) and advance
`_depsLength`.  Writing at `_depsLength = deps.length` appends, as the
JS array assignment does. -/
def trackEffect (s : EffState) (d : Nat) : EffState :=
  if s.depEntry d = some s.trackId then s
  else
    let s1 := { s with depEntry := setEntry s.depEntry d (some s.trackId) }
    match s1.deps[s1.depsLength]? with
    | some oldDep =>
      if oldDep ≠ d then
        let s2 := cleanupDepEffect s1 oldDep
        { s2 with deps := s2.deps.set s2.depsLength d, depsLength := s2.depsLength + 1 }
      else
        { s1 with depsLength := s1.depsLength + 1 }
    | none =>
      { s1 with deps := s1.deps ++ [d], depsLength := s1.depsLength + 1 }

/-- `postCleanupEffect(effect)`: unsubscribe from every dep past
`_depsLength`, then truncate `deps` to `_depsLength`. -/
def postCleanupEffect (s : EffState) : EffState :=
  if s.deps.length > s.depsLength then
    let s' := (s.deps.drop s.depsLength).foldl cleanupDepEffect s
    { s' with deps := s'.deps.take s'.depsLength }
  else s

/-- `ReactiveEffect.run()` for an active effect whose `fn` terminates
normally: pre-cleanup, then the body performs `track` on a sequence of
deps (`touches`, in touch order), then post-cleanup.  The dirty-level
write and the save/restore of `shouldTrack`/`activeEffect` do not affect
the dependency bookkeeping. -/
def runEffect (s : EffState) (touches : List Nat) : EffState :=
  postCleanupEffect (touches.foldl trackEffect (preCleanupEffect s))

/-! ### Invariants of the run protocol -/

/-- Invariant maintained while the effect body runs with current trackId
`T`: the live prefix `deps[0.._depsLength]` stores `T` in every slot, and
conversely only deps in that prefix store `T`. -/
def TrackInv (T : Nat) (s : EffState) : Prop :=
  s.trackId = T ∧ s.depsLength ≤ s.deps.length ∧
  (∀ i, i < s.depsLength → ∃ d, s.deps[i]? = some d ∧ s.depEntry d = some T) ∧
  (∀ d, s.depEntry d = some T → d ∈ s.deps.take s.depsLength)

theorem cleanupDepEffect_deps (s : EffState) (d : Nat) :
    (cleanupDepEffect s d).deps = s.deps := by
  unfold cleanupDepEffect
  cases h : s.depEntry d with
  | none => rfl
  | some tid => dsimp only; split <;> rfl

theorem cleanupDepEffect_depsLength (s : EffState) (d : Nat) :
    (cleanupDepEffect s d).depsLength = s.depsLength := by
  unfold cleanupDepEffect
  cases h : s.depEntry d with
  | none => rfl
  | some tid => dsimp only; split <;> rfl

theorem cleanupDepEffect_trackId (s : EffState) (d : Nat) :
    (cleanupDepEffect s d).trackId = s.trackId := by
  unfold cleanupDepEffect
  cases h : s.depEntry d with
  | none => rfl
  | some tid => dsimp only; split <;> rfl

/-- `cleanupDepEffect` never removes an entry that stores the current
trackId (the mismatch guard protects live edges). -/
theorem cleanupDepEffect_entry_live (s : EffState) (d x : Nat)
    (hx : s.depEntry x = some s.trackId) :
    (cleanupDepEffect s d).depEntry x = some s.trackId := by
  unfold cleanupDepEffect
  cases h : s.depEntry d with
  | none => exact hx
  | some tid =>
    dsimp only
    split
    · rename_i hne
      by_cases hxd : x = d
      · subst hxd; rw [hx] at h; cases h; exact absurd rfl hne
      · simpa [setEntry, hxd] using hx
    · exact hx

/-- `cleanupDepEffect` only deletes entries: any entry of the result was
already present. -/
theorem cleanupDepEffect_entry_subset (s : EffState) (d x : Nat) (t : Nat)
    (hx : (cleanupDepEffect s d).depEntry x = some t) :
    s.depEntry x = some t := by
  unfold cleanupDepEffect at hx
  cases h : s.depEntry d with
  | none => rw [h] at hx; exact hx
  | some tid =>
    rw [h] at hx; dsimp only at hx
    split at hx
    · by_cases hxd : x = d
      · subst hxd; simp [setEntry] at hx
      · simpa [setEntry, hxd] using hx
    · exact hx


theorem setEntry_same (f : Nat → Option Nat) (d : Nat) (v : Option Nat) :
    setEntry f d v d = v := by
  simp [setEntry]

theorem setEntry_other (f : Nat → Option Nat) {d x : Nat} (v : Option Nat) (hx : x ≠ d) :
    setEntry f d v x = f x := by
  simp [setEntry, hx]

/-- `(l.set n a).take n = l.take n`: writing at the slot just past the
prefix leaves the prefix unchanged. -/
theorem take_set_same (l : List Nat) (n : Nat) (a : Nat) :
    (l.set n a).take n = l.take n := by
  apply List.ext_getElem?
  intro i
  by_cases hi : i < n
  · rw [List.getElem?_take, List.getElem?_take]
    simp only [hi, if_true]
    exact List.getElem?_set_ne (by omega)
  · rw [List.getElem?_take, List.getElem?_take]
    simp [hi]

theorem mem_take_of_getElem? {l : List Nat} {n a : Nat} (h : l[n]? = some a) :
    a ∈ l.take (n + 1) := by
  obtain ⟨hn, hv⟩ := List.getElem?_eq_some.mp h
  exact List.mem_take_iff_getElem.mpr ⟨n, by omega, hv⟩

theorem mem_take_mono {l : List Nat} {m n x : Nat} (hmn : m ≤ n) (h : x ∈ l.take m) :
    x ∈ l.take n := by
  obtain ⟨i, hi, hv⟩ := List.mem_take_iff_getElem.mp h
  exact List.mem_take_iff_getElem.mpr ⟨i, by omega, hv⟩

/-- One `trackEffect` step preserves the tracking invariant. -/
theorem trackEffect_inv {T : Nat} {s : EffState} (h : TrackInv T s) (d : Nat) :
    TrackInv T (trackEffect s d) := by
  obtain ⟨hT, hlen, hpre, hall⟩ := h
  subst hT
  unfold trackEffect
  by_cases hd : s.depEntry d = some s.trackId
  · simp only [hd, if_true]
    exact ⟨rfl, hlen, hpre, hall⟩
  · simp only [hd, if_false]
    split
    next oldDep heq =>
      have hdl : s.depsLength < s.deps.length := by
        by_contra hc
        rw [List.getElem?_eq_none_iff.mpr (by omega)] at heq
        exact Option.noConfusion heq
      by_cases hod : oldDep ≠ d
      · rw [if_pos hod]
        set s1 : EffState := { s with depEntry := setEntry s.depEntry d (some s.trackId) }
          with hs1
        have hcdeps := cleanupDepEffect_deps s1 oldDep
        have hcdl := cleanupDepEffect_depsLength s1 oldDep
        have hctid := cleanupDepEffect_trackId s1 oldDep
        refine ⟨?_, ?_, ?_, ?_⟩
        · dsimp only; exact hctid
        · dsimp only
          rw [hcdeps, hcdl, List.length_set]
          show s.depsLength + 1 ≤ s.deps.length
          omega
        · intro i hi
          dsimp only at hi ⊢
          rw [hcdl] at hi
          rw [hcdeps, hcdl]
          rcases Nat.lt_succ_iff_lt_or_eq.mp hi with hi' | hi'
          · obtain ⟨di, hdi, hei⟩ := hpre i hi'
            refine ⟨di, ?_, ?_⟩
            · rw [List.getElem?_set_ne (by omega)]
              exact hdi
            · have h1 : s1.depEntry di = some s1.trackId := by
                by_cases hdid : di = d
                · subst hdid; exact setEntry_same _ _ _
                · show setEntry s.depEntry d (some s.trackId) di = some s.trackId
                  rw [setEntry_other _ _ hdid]
                  exact hei
              exact cleanupDepEffect_entry_live s1 oldDep di h1
          · subst hi'
            refine ⟨d, ?_, ?_⟩
            · exact List.getElem?_set_self (by simpa using hdl)
            · exact cleanupDepEffect_entry_live s1 oldDep d (setEntry_same _ _ _)
        · intro x hx
          dsimp only at hx ⊢
          rw [hcdeps, hcdl]
          have hx1 : s1.depEntry x = some s.trackId :=
            cleanupDepEffect_entry_subset s1 oldDep x _ hx
          by_cases hxd : x = d
          · subst hxd
            have hg : (s.deps.set s.depsLength x)[s.depsLength]? = some x :=
              List.getElem?_set_self (by simpa using hdl)
            exact mem_take_of_getElem? hg
          · have hx2 : s.depEntry x = some s.trackId := by
              have : setEntry s.depEntry d (some s.trackId) x = some s.trackId := hx1
              rwa [setEntry_other _ _ hxd] at this
            refine mem_take_mono (Nat.le_succ _) ?_
            rw [take_set_same]
            exact hall x hx2
      · rw [if_neg hod]
        have hod' : oldDep = d := not_ne_iff.mp hod
        rw [hod'] at heq
        refine ⟨rfl, ?_, ?_, ?_⟩
        · dsimp only; omega
        · intro i hi
          dsimp only at hi ⊢
          rcases Nat.lt_succ_iff_lt_or_eq.mp hi with hi' | hi'
          · obtain ⟨di, hdi, hei⟩ := hpre i hi'
            refine ⟨di, hdi, ?_⟩
            by_cases hdid : di = d
            · subst hdid; exact setEntry_same _ _ _
            · rw [setEntry_other _ _ hdid]; exact hei
          · subst hi'
            exact ⟨d, heq, setEntry_same _ _ _⟩
        · intro x hx
          dsimp only at hx ⊢
          by_cases hxd : x = d
          · subst hxd
            exact mem_take_of_getElem? heq
          · rw [setEntry_other _ _ hxd] at hx
            exact mem_take_mono (Nat.le_succ _) (hall x hx)
    next heq =>
      have hdl : s.deps.length ≤ s.depsLength := by
        rw [List.getElem?_eq_none_iff] at heq
        exact heq
      have hdleq : s.depsLength = s.deps.length := le_antisymm hdl hlen |>.symm
      refine ⟨rfl, ?_, ?_, ?_⟩
      · dsimp only; simp [List.length_append]; omega
      · intro i hi
        dsimp only at hi ⊢
        rcases Nat.lt_succ_iff_lt_or_eq.mp hi with hi' | hi'
        · obtain ⟨di, hdi, hei⟩ := hpre i hi'
          refine ⟨di, ?_, ?_⟩
          · rw [List.getElem?_append]
            simp only [show i < s.deps.length by omega, if_true]
            exact hdi
          · by_cases hdid : di = d
            · subst hdid; exact setEntry_same _ _ _
            · rw [setEntry_other _ _ hdid]; exact hei
        · subst hi'
          refine ⟨d, ?_, setEntry_same _ _ _⟩
          rw [hdleq]
          exact List.getElem?_concat_length _ _
      · intro x hx
        dsimp only at hx ⊢
        have htake : (s.deps ++ [d]).take (s.depsLength + 1) = s.deps ++ [d] := by
          apply List.take_of_length_le
          simp [hdleq]
        rw [htake]
        by_cases hxd : x = d
        · subst hxd; exact List.mem_append_right _ (List.mem_singleton_self _)
        · rw [setEntry_other _ _ hxd] at hx
          exact List.mem_append_left _ (List.take_subset _ _ (hall x hx))

theorem trackEffect_foldl_inv {T : Nat} {s : EffState} (h : TrackInv T s)
    (touches : List Nat) : TrackInv T (touches.foldl trackEffect s) := by
  induction touches generalizing s with
  | nil => exact h
  | cons t ts ih => exact ih (trackEffect_inv h t)

theorem foldl_cleanup_deps (l : List Nat) (s : EffState) :
    (l.foldl cleanupDepEffect s).deps = s.deps := by
  induction l generalizing s with
  | nil => rfl
  | cons a as ih => rw [List.foldl_cons, ih, cleanupDepEffect_deps]

theorem foldl_cleanup_depsLength (l : List Nat) (s : EffState) :
    (l.foldl cleanupDepEffect s).depsLength = s.depsLength := by
  induction l generalizing s with
  | nil => rfl
  | cons a as ih => rw [List.foldl_cons, ih, cleanupDepEffect_depsLength]

theorem foldl_cleanup_trackId (l : List Nat) (s : EffState) :
    (l.foldl cleanupDepEffect s).trackId = s.trackId := by
  induction l generalizing s with
  | nil => rfl
  | cons a as ih => rw [List.foldl_cons, ih, cleanupDepEffect_trackId]

theorem foldl_cleanup_entry_live (l : List Nat) (s : EffState) (x : Nat)
    (hx : s.depEntry x = some s.trackId) :
    (l.foldl cleanupDepEffect s).depEntry x = some s.trackId := by
  induction l generalizing s with
  | nil => exact hx
  | cons a as ih =>
    rw [List.foldl_cons]
    have h1 := cleanupDepEffect_entry_live s a x hx
    rw [← cleanupDepEffect_trackId s a] at h1
    have := ih (s := cleanupDepEffect s a) h1
    rwa [cleanupDepEffect_trackId] at this
  
theorem foldl_cleanup_entry_subset (l : List Nat) (s : EffState) (x t : Nat)
    (hx : (l.foldl cleanupDepEffect s).depEntry x = some t) :
    s.depEntry x = some t := by
  induction l generalizing s with
  | nil => exact hx
  | cons a as ih =>
    rw [List.foldl_cons] at hx
    exact cleanupDepEffect_entry_subset s a x t (ih (s := cleanupDepEffect s a) hx)

/-- The pre-cleanup establishes the invariant for the fresh trackId, as
long as no dep already stores a trackId from the future (stored ids are
bounded by the current `_trackId`, which is monotonically increasing). -/
theorem preCleanup_inv {s : EffState}
    (hbound : ∀ d t, s.depEntry d = some t → t ≤ s.trackId) :
    TrackInv (s.trackId + 1) (preCleanupEffect s) := by
  refine ⟨rfl, Nat.zero_le _, ?_, ?_⟩
  · intro i hi
    exact absurd hi (Nat.not_lt_zero _)
  · intro x hx
    have := hbound x _ hx
    omega

/-- C1.  For every effect whose `fn` terminates normally (modelled as the
ordered sequence of deps it touches), after `effect.run()` returns every
dep stored in `effect.deps` maps this effect to the effect's current
`_trackId`, `deps.length` equals `_depsLength`, and no dep outside
`effect.deps[0.._depsLength]` still stores an entry for this effect under
that `_trackId`.  The hypothesis says that no dep entry is from the
future: every stored trackId is at most the effect's current `_trackId`
(which only `preCleanupEffect` increments). -/
theorem run_postcondition_deps_live (s : EffState) (touches : List Nat)
    (hbound : ∀ d t, s.depEntry d = some t → t ≤ s.trackId) :
    (runEffect s touches).deps.length = (runEffect s touches).depsLength ∧
    (∀ d ∈ (runEffect s touches).deps,
      (runEffect s touches).depEntry d = some (runEffect s touches).trackId) ∧
    (∀ d, d ∉ (runEffect s touches).deps →
      (runEffect s touches).depEntry d ≠ some (runEffect s touches).trackId) := by
  have hM : TrackInv (s.trackId + 1) (touches.foldl trackEffect (preCleanupEffect s)) :=
    trackEffect_foldl_inv (preCleanup_inv hbound) touches
  set M := touches.foldl trackEffect (preCleanupEffect s) with hMdef
  obtain ⟨hT, hlen, hpre, hall⟩ := hM
  unfold runEffect
  rw [← hMdef]
  unfold postCleanupEffect
  by_cases hgt : M.deps.length > M.depsLength
  · rw [if_pos hgt]
    set s' := (M.deps.drop M.depsLength).foldl cleanupDepEffect M with hs'def
    have hdeps : s'.deps = M.deps := foldl_cleanup_deps _ _
    have hdl : s'.depsLength = M.depsLength := foldl_cleanup_depsLength _ _
    have htid : s'.trackId = M.trackId := foldl_cleanup_trackId _ _
    refine ⟨?_, ?_, ?_⟩
    · dsimp only
      rw [hdeps, hdl, List.length_take]
      omega
    · intro d hdmem
      dsimp only at hdmem ⊢
      rw [hdeps, hdl] at hdmem
      have hlive : M.depEntry d = some M.trackId := by
        obtain ⟨i, hi, hv⟩ := List.mem_take_iff_getElem.mp hdmem
        obtain ⟨di, hdi, hei⟩ := hpre i (by omega)
        have hg : M.deps[i]? = some (M.deps[i]) := List.getElem?_eq_some.mpr ⟨by omega, rfl⟩
        rw [hg] at hdi
        have hdieq : M.deps[i] = di := Option.some.inj hdi
        rw [hT, ← hv, hdieq]
        exact hei
      rw [htid]
      exact foldl_cleanup_entry_live (M.deps.drop M.depsLength) M d hlive
    · intro d hdnot hcontra
      dsimp only at hdnot hcontra
      rw [hdeps, hdl] at hdnot
      rw [htid, hT] at hcontra
      have hMentry : M.depEntry d = some (s.trackId + 1) :=
        foldl_cleanup_entry_subset _ _ _ _ hcontra
      exact hdnot (hall d hMentry)
  · rw [if_neg hgt]
    have hdleq : M.depsLength = M.deps.length := by omega
    refine ⟨hdleq.symm, ?_, ?_⟩
    · intro d hdmem
      obtain ⟨i, hi, hv⟩ := List.mem_iff_getElem.mp hdmem
      obtain ⟨di, hdi, hei⟩ := hpre i (by omega)
      have hg : M.deps[i]? = some (M.deps[i]) := List.getElem?_eq_some.mpr ⟨hi, rfl⟩
      rw [hg] at hdi
      cases hdi
      rw [hT, ← hv]
      exact hei
    · intro d hdnot hcontra
      rw [hT] at hcontra
      have := hall d hcontra
      rw [hdleq, List.take_length] at this
      exact hdnot this

/-- A fresh effect state: `_trackId = 0`, no deps, no dep entries. -/
def effState0 : EffState :=
  { trackId := 0, depsLength := 0, deps := [], depEntry := fun _ => none }

/-- Witness for C1 at a concrete run touching deps `0`, `1` and `0` again:
the invariant theorem applies, and instantiating its third conjunct at the
untouched dep `7` shows no stale edge survives. -/
theorem run_postcondition_deps_live_witness :
    (runEffect effState0 [0, 1, 0]).deps.length = (runEffect effState0 [0, 1, 0]).depsLength ∧
    (runEffect effState0 [0, 1, 0]).depEntry 7 ≠
      some (runEffect effState0 [0, 1, 0]).trackId := by
  have h := run_postcondition_deps_live effState0 [0, 1, 0]
    (by intro d t ht; simp [effState0] at ht)
  exact ⟨h.1, h.2.2 7 (by decide)⟩

/-! ## The `effect()` entry point (`effect.ts`)

`effect(fn, options?)` checks whether `fn` is itself a runner returned by
a previous `effect()` call (`fn.effect instanceof ReactiveEffect`); if so
it unwraps to the underlying effect's `fn` before constructing the new
`ReactiveEffect`.  The user computation is modelled, as in the run model
above, by the ordered dep-touch trace it performs. -/

structure EffectObj where
  fn : List Nat
  st : EffState
  hasScheduler : Bool

/-- A `ReactiveEffectRunner`: a callable exposing `.effect`. -/
structure Runner where
  effect : EffectObj

inductive EffectArg where
  | fnArg (touches : List Nat)
  | runnerArg (r : Runner)

structure EffectOptions where
  lazyOpt : Bool

/-- `effect(fn, options?)`: unwrap a runner argument to its underlying
`fn`, build the `ReactiveEffect` (fresh bookkeeping state, `NOOP`
trigger, the dirty-checking scheduler), run it unless `lazy`, and return
the runner. -/
def effectCtor (arg : EffectArg) (opts : EffectOptions) : Runner :=
  let fn := match arg with
    | .fnArg f => f
    | .runnerArg r => r.effect.fn
  let e0 : EffectObj := { fn := fn, st := effState0, hasScheduler := true }
  let e1 := if opts.lazyOpt then e0 else { e0 with st := runEffect e0.st e0.fn }
  { effect := e1 }

/-- C10.  `effect(runner)` rebuilds the effect around the original
underlying `fn` of the runner's effect, not around the runner function
itself: the new effect's `fn` equals the old effect's `fn`. -/
theorem effectCtor_runner_reuses_fn (r : Runner) (opts : EffectOptions) :
    (effectCtor (.runnerArg r) opts).effect.fn = r.effect.fn := by
  unfold effectCtor
  by_cases h : opts.lazyOpt <;> simp [h]

/-! ## `triggerEffects` / `scheduleEffects` batching (`effect.ts`)

Here several effects subscribe to several deps, so a `Dep` is its
`Map<effect, trackId>` in iteration order: a list of
(effect id, stored trackId) pairs.  Effects are addressed by id in a
total map.  `DirtyLevels` is encoded `NotDirty = 0`, `MaybeDirty = 1`,
`Dirty = 2` as in `constants.ts`.  The `effect.trigger()` callback fired
on invalidation is the `NOOP` that `effect()` installs.  Draining the
deferred buffer invokes the queued schedulers; the schedulers themselves
belong to the consumer (the C6 scheduler) and are opaque here, so a
drain moves the queued ids to `drained` in FIFO order.  `pushLog`
records every enqueue into `queueEffectSchedulers` and is never erased,
so occurrence counts in it count enqueues. -/

structure EffSt2 where
  dirtyLevel : Nat
  shouldSchedule : Bool
  trackId : Nat
  runnings : Nat
  allowRecurse : Bool
  hasScheduler : Bool

abbrev Dep2 := List (Nat × Nat)

structure BatchState where
  effects : Nat → EffSt2
  pauseScheduleStack : Int
  queueEffectSchedulers : List Nat
  pushLog : List Nat
  drained : List Nat

def updEff (f : Nat → EffSt2) (e : Nat) (v : EffSt2) : Nat → EffSt2 :=
  fun x => if x = e then v else f x

/-- `pauseScheduling()`: `pauseScheduleStack++`. -/
def pauseSchedulingB (s : BatchState) : BatchState :=
  { s with pauseScheduleStack := s.pauseScheduleStack + 1 }

/-- `resetScheduling()`: `pauseScheduleStack--`, then
`while (!pauseScheduleStack && queueEffectSchedulers.length) shift()()`:
when the counter is exactly `0` the buffer is drained front to back. -/
def resetSchedulingB (s : BatchState) : BatchState :=
  let d := s.pauseScheduleStack - 1
  if d = 0 then
    { s with pauseScheduleStack := d,
             drained := s.drained ++ s.queueEffectSchedulers,
             queueEffectSchedulers := [] }
  else { s with pauseScheduleStack := d }

/-- The subscriber walk of `triggerEffects(dep, DirtyLevels.Dirty)`: for
each subscriber with `_dirtyLevel < Dirty` and a live edge, raise the
dirty level; if it was `NotDirty`, set `_shouldSchedule` and call the
(`NOOP`) trigger. -/
def triggerEffectStep (s : BatchState) (et : Nat × Nat) : BatchState :=
  let st := s.effects et.1
  if st.dirtyLevel < 2 ∧ et.2 = st.trackId then
    let st1 : EffSt2 := { st with dirtyLevel := 2 }
    let st2 := if st.dirtyLevel = 0 then { st1 with shouldSchedule := true } else st1
    { s with effects := updEff s.effects et.1 st2 }
  else s

def triggerEffectsLoop (dep : Dep2) (s : BatchState) : BatchState :=
  dep.foldl triggerEffectStep s

/-- `scheduleEffects(dep)`: enqueue the scheduler of every subscriber
that has one, that should be scheduled, that is not mid-run (unless
`allowRecurse`) and whose edge is live; clear `_shouldSchedule` on
enqueue. -/
def scheduleEffectStep (s : BatchState) (et : Nat × Nat) : BatchState :=
  let st := s.effects et.1
  if st.hasScheduler ∧ st.shouldSchedule ∧ (st.runnings = 0 ∨ st.allowRecurse) ∧
      et.2 = st.trackId then
    { s with effects := updEff s.effects et.1 { st with shouldSchedule := false },
             queueEffectSchedulers := s.queueEffectSchedulers ++ [et.1],
             pushLog := s.pushLog ++ [et.1] }
  else s

def scheduleEffectsB (dep : Dep2) (s : BatchState) : BatchState :=
  dep.foldl scheduleEffectStep s

/-- `triggerEffects(dep, DirtyLevels.Dirty)`: pause, walk subscribers,
`scheduleEffects(dep)`, reset. -/
def triggerEffectsB (dep : Dep2) (s : BatchState) : BatchState :=
  resetSchedulingB (scheduleEffectsB dep (triggerEffectsLoop dep (pauseSchedulingB s)))

/-- The notification phase of `trigger(...)`: pause, `triggerEffects`
each affected dep with `DirtyLevels.Dirty`, reset. -/
def triggerB (deps : List Dep2) (s : BatchState) : BatchState :=
  resetSchedulingB (deps.foldl (fun s dep => triggerEffectsB dep s) (pauseSchedulingB s))

/-- A mutation batch: `pauseScheduling()`, a sequence of `trigger` calls
(each given the list of deps it fires), and the matching
`resetScheduling()`. -/
def mutationBatch (muts : List (List Dep2)) (s : BatchState) : BatchState :=
  resetSchedulingB ((muts.foldl (fun s deps => triggerB deps s) (pauseSchedulingB s)))

/-! ### At most one scheduler enqueue per effect per batch -/

/-- Relative batch invariant: during a batch starting at `s0`, each
effect has been enqueued at most once more than at batch start; an
effect that has been enqueued has `_shouldSchedule` cleared and a dirty
level of at least `MaybeDirty`, which (with the dirty level only rising
inside a batch) blocks any further enqueue. -/
def PushInv (s0 s : BatchState) : Prop :=
  ∀ e, s.pushLog.count e ≤ s0.pushLog.count e + 1 ∧
    (s.pushLog.count e = s0.pushLog.count e + 1 →
      (s.effects e).shouldSchedule = false ∧ 1 ≤ (s.effects e).dirtyLevel)

theorem updEff_same (f : Nat → EffSt2) (e : Nat) (v : EffSt2) : updEff f e v e = v := by
  simp [updEff]

theorem updEff_other (f : Nat → EffSt2) (e : Nat) (v : EffSt2) {x : Nat} (h : x ≠ e) :
    updEff f e v x = f x := by
  simp [updEff, h]

theorem triggerEffectStep_trackId (s : BatchState) (et : Nat × Nat) (e : Nat) :
    (((triggerEffectStep s et).effects e)).trackId = (s.effects e).trackId := by
  unfold triggerEffectStep
  dsimp only
  split
  · dsimp only
    by_cases he : e = et.1
    · subst he
      rw [updEff_same]
      by_cases h0 : (s.effects et.1).dirtyLevel = 0
      · rw [if_pos h0]
      · rw [if_neg h0]
    · rw [updEff_other _ _ _ he]
  · rfl

theorem triggerEffectStep_pushLog (s : BatchState) (et : Nat × Nat) :
    (triggerEffectStep s et).pushLog = s.pushLog := by
  unfold triggerEffectStep
  dsimp only
  split <;> rfl

theorem triggerEffectStep_dirty_mono (s : BatchState) (et : Nat × Nat) (e : Nat) :
    (s.effects e).dirtyLevel ≤ ((triggerEffectStep s et).effects e).dirtyLevel := by
  unfold triggerEffectStep
  dsimp only
  split
  · dsimp only
    by_cases he : e = et.1
    · subst he
      rw [updEff_same]
      by_cases h0 : (s.effects et.1).dirtyLevel = 0
      · rw [if_pos h0]
        show (s.effects et.1).dirtyLevel ≤ 2
        omega
      · rw [if_neg h0]
        show (s.effects et.1).dirtyLevel ≤ 2
        omega
    · rw [updEff_other _ _ _ he]
  · exact le_refl _

theorem triggerEffectStep_live_dirty (s : BatchState) (et : Nat × Nat)
    (hlive : et.2 = (s.effects et.1).trackId) :
    2 ≤ ((triggerEffectStep s et).effects et.1).dirtyLevel := by
  unfold triggerEffectStep
  dsimp only
  by_cases hcond : (s.effects et.1).dirtyLevel < 2 ∧ et.2 = (s.effects et.1).trackId
  · rw [if_pos hcond]
    dsimp only
    rw [updEff_same]
    by_cases h0 : (s.effects et.1).dirtyLevel = 0
    · rw [if_pos h0]
    · rw [if_neg h0]
  · rw [if_neg hcond]
    rcases Decidable.not_and_iff_or_not.mp hcond with h | h
    · omega
    · exact absurd hlive h

theorem triggerEffectStep_protect (s : BatchState) (et : Nat × Nat) (e : Nat)
    (h : (s.effects e).shouldSchedule = false ∧ 1 ≤ (s.effects e).dirtyLevel) :
    ((triggerEffectStep s et).effects e).shouldSchedule = false ∧
      1 ≤ ((triggerEffectStep s et).effects e).dirtyLevel := by
  unfold triggerEffectStep
  dsimp only
  split
  · dsimp only
    by_cases he : e = et.1
    · subst he
      rw [updEff_same]
      have h0 : ¬(s.effects et.1).dirtyLevel = 0 := by omega
      rw [if_neg h0]
      refine ⟨h.1, ?_⟩
      show (1:Nat) ≤ 2
      omega
    · rw [updEff_other _ _ _ he]
      exact h
  · exact h

theorem scheduleEffectStep_dirty (s : BatchState) (p : Nat × Nat) (e : Nat) :
    ((scheduleEffectStep s p).effects e).dirtyLevel = (s.effects e).dirtyLevel := by
  unfold scheduleEffectStep
  dsimp only
  split
  · dsimp only
    by_cases he : e = p.1
    · subst he
      rw [updEff_same]
    · rw [updEff_other _ _ _ he]
  · rfl

theorem scheduleEffectStep_trackId (s : BatchState) (p : Nat × Nat) (e : Nat) :
    ((scheduleEffectStep s p).effects e).trackId = (s.effects e).trackId := by
  unfold scheduleEffectStep
  dsimp only
  split
  · dsimp only
    by_cases he : e = p.1
    · subst he
      rw [updEff_same]
    · rw [updEff_other _ _ _ he]
  · rfl

theorem triggerEffectsLoop_trackId (dep : Dep2) (s : BatchState) (e : Nat) :
    ((triggerEffectsLoop dep s).effects e).trackId = (s.effects e).trackId := by
  induction dep generalizing s with
  | nil => rfl
  | cons p ps ih =>
    show ((triggerEffectsLoop ps (triggerEffectStep s p)).effects e).trackId = _
    rw [ih, triggerEffectStep_trackId]

theorem triggerEffectsLoop_dirty_mono (dep : Dep2) (s : BatchState) (e : Nat) :
    (s.effects e).dirtyLevel ≤ ((triggerEffectsLoop dep s).effects e).dirtyLevel := by
  induction dep generalizing s with
  | nil => exact le_refl _
  | cons p ps ih =>
    calc (s.effects e).dirtyLevel
        ≤ ((triggerEffectStep s p).effects e).dirtyLevel := triggerEffectStep_dirty_mono _ _ _
      _ ≤ _ := ih (triggerEffectStep s p)

/-- After the subscriber walk of `triggerEffects(dep, Dirty)`, every
subscriber with a live edge in `dep` has a dirty level of at least
`MaybeDirty`. -/
def LiveDirty (dep : Dep2) (s : BatchState) : Prop :=
  ∀ p ∈ dep, p.2 = (s.effects p.1).trackId → 1 ≤ (s.effects p.1).dirtyLevel

theorem triggerEffectsLoop_liveDirty (dep : Dep2) (s : BatchState) :
    LiveDirty dep (triggerEffectsLoop dep s) := by
  induction dep generalizing s with
  | nil => intro p hp; cases hp
  | cons p ps ih =>
    intro q hq hlive
    rcases List.mem_cons.mp hq with hq' | hq'
    · subst hq'
      have hloop : triggerEffectsLoop (q :: ps) s = triggerEffectsLoop ps (triggerEffectStep s q) := rfl
      rw [hloop] at hlive ⊢
      rw [triggerEffectsLoop_trackId, triggerEffectStep_trackId] at hlive
      have h2 : 2 ≤ ((triggerEffectStep s q).effects q.1).dirtyLevel :=
        triggerEffectStep_live_dirty s q hlive
      have := triggerEffectsLoop_dirty_mono ps (triggerEffectStep s q) q.1
      omega
    · exact ih (triggerEffectStep s p) q hq' hlive

theorem triggerEffectsLoop_pushInv {s0 s : BatchState} (h : PushInv s0 s) (dep : Dep2) :
    PushInv s0 (triggerEffectsLoop dep s) := by
  induction dep generalizing s with
  | nil => exact h
  | cons p ps ih =>
    refine ih (s := triggerEffectStep s p) ?_
    intro e
    obtain ⟨h1, h2⟩ := h e
    rw [triggerEffectStep_pushLog]
    exact ⟨h1, fun hc => triggerEffectStep_protect s p e (h2 hc)⟩

theorem scheduleEffectStep_pushInv {s0 s : BatchState} (h : PushInv s0 s) (p : Nat × Nat)
    (hlive : p.2 = (s.effects p.1).trackId → 1 ≤ (s.effects p.1).dirtyLevel) :
    PushInv s0 (scheduleEffectStep s p) := by
  unfold scheduleEffectStep
  dsimp only
  split
  · rename_i hcond
    intro e
    obtain ⟨h1, h2⟩ := h e
    dsimp only
    by_cases he : e = p.1
    · subst he
      rw [updEff_same, List.count_append]
      have hSS : (s.effects p.1).shouldSchedule = true := hcond.2.1
      have hcnt : s.pushLog.count p.1 ≤ s0.pushLog.count p.1 := by
        rcases Nat.lt_or_ge (s.pushLog.count p.1) (s0.pushLog.count p.1 + 1) with hlt | hge
        · omega
        · have hceq : s.pushLog.count p.1 = s0.pushLog.count p.1 + 1 := by omega
          have hfalse := (h2 hceq).1
          rw [hSS] at hfalse
          cases hfalse
      constructor
      · simp
        omega
      · intro _
        refine ⟨rfl, ?_⟩
        exact hlive hcond.2.2.2
    · rw [updEff_other _ _ _ he, List.count_append]
      have : List.count e [p.1] = 0 := by
        simp [List.count_singleton]
        omega
      rw [this]
      exact ⟨by omega, fun hc => h2 (by omega)⟩
  · exact h

theorem scheduleEffectsB_pushInv {s0 s : BatchState} (h : PushInv s0 s) (dep : Dep2)
    (hld : LiveDirty dep s) : PushInv s0 (scheduleEffectsB dep s) := by
  induction dep generalizing s with
  | nil => exact h
  | cons p ps ih =>
    show PushInv s0 (scheduleEffectsB ps (scheduleEffectStep s p))
    refine ih ?_ ?_
    · exact scheduleEffectStep_pushInv h p (hld p (List.mem_cons_self _ _))
    · intro q hq hlive
      rw [scheduleEffectStep_trackId] at hlive
      rw [scheduleEffectStep_dirty]
      exact hld q (List.mem_cons_of_mem _ hq) hlive

theorem pauseSchedulingB_pushInv {s0 s : BatchState} (h : PushInv s0 s) :
    PushInv s0 (pauseSchedulingB s) := h

theorem resetSchedulingB_pushInv {s0 s : BatchState} (h : PushInv s0 s) :
    PushInv s0 (resetSchedulingB s) := by
  unfold resetSchedulingB
  dsimp only
  split <;> exact h

theorem triggerEffectsB_pushInv {s0 s : BatchState} (h : PushInv s0 s) (dep : Dep2) :
    PushInv s0 (triggerEffectsB dep s) := by
  unfold triggerEffectsB
  refine resetSchedulingB_pushInv (scheduleEffectsB_pushInv ?_ dep ?_)
  · exact triggerEffectsLoop_pushInv (pauseSchedulingB_pushInv h) dep
  · exact triggerEffectsLoop_liveDirty dep (pauseSchedulingB s)

theorem triggerB_pushInv {s0 s : BatchState} (h : PushInv s0 s) (deps : List Dep2) :
    PushInv s0 (triggerB deps s) := by
  unfold triggerB
  refine resetSchedulingB_pushInv ?_
  have hbase : PushInv s0 (pauseSchedulingB s) := pauseSchedulingB_pushInv h
  generalize pauseSchedulingB s = t at hbase
  induction deps generalizing t with
  | nil => exact hbase
  | cons dep rest ih =>
    exact ih (triggerEffectsB dep t) (triggerEffectsB_pushInv hbase dep)

/-- C2.  For every sequence of mutations performed between one
`pauseScheduling()` call and its matching `resetScheduling()` call, each
affected effect's scheduler is enqueued into `queueEffectSchedulers` at
most once, no matter how many keys changed (`muts` entries) or how many
deps fire (`Dep2` lists): the enqueue count of every effect grows by at
most one over the batch. -/
theorem mutation_batch_single_enqueue (muts : List (List Dep2)) (s : BatchState) (e : Nat) :
    (mutationBatch muts s).pushLog.count e ≤ s.pushLog.count e + 1 := by
  have hbase : PushInv s s := by
    intro e
    exact ⟨Nat.le_succ _, fun hc => absurd hc (by omega)⟩
  have hfold : PushInv s ((muts.foldl (fun s deps => triggerB deps s) (pauseSchedulingB s))) := by
    have hb : PushInv s (pauseSchedulingB s) := pauseSchedulingB_pushInv hbase
    generalize pauseSchedulingB s = t at hb
    induction muts generalizing t with
    | nil => exact hb
    | cons m rest ih => exact ih (triggerB m t) (triggerB_pushInv hb m)
  exact (resetSchedulingB_pushInv hfold e).1

/-! ## `trigger` on `SET` of an array's `"length"` (`reactiveEffect.ts`)

The branch `key === 'length' && isArray(target)` walks the whole
`depsMap` and fires the dep of every key that is `'length'` or a
non-symbol key `k` with `k >= Number(newValue)` — a JavaScript relational
comparison that coerces the key string to a number (`NaN` compares
false).  A `depsMap` key for an array target is therefore either a
symbol, the string `'length'`, a string with a numeric value (modelled by
that value as a rational), or a non-numeric string.  `newLen` is
`Number(newValue)`. -/

inductive RKey where
  | symK (id : Nat)
  | lengthK
  | numStrK (q : ℚ)
  | otherStrK (s : String)
deriving DecidableEq

/-- The firing condition of the source:
`key === 'length' || (!isSymbol(key) && key >= Number(newValue))`. -/
def lengthFires (newLen : ℚ) : RKey → Bool
  | .symK _ => false
  | .lengthK => true
  | .numStrK q => decide (newLen ≤ q)
  | .otherStrK _ => false

/-- Deps collected by the `'length'` branch of `trigger`, in `depsMap`
iteration order (the `forEach` / `push` loop). -/
def lengthTriggerDeps (m : List (RKey × Nat)) (newLen : ℚ) : List Nat :=
  (m.filter (fun kv => lengthFires newLen kv.1)).map (fun kv => kv.2)

/-- The firing condition in the spec's words: the `'length'` dep, and
every dep under an *integer key* `≥` the new length (an integer key is a
non-negative whole number). -/
def specLengthFires (newLen : ℚ) : RKey → Bool
  | .symK _ => false
  | .lengthK => true
  | .numStrK q => decide (0 ≤ q ∧ q.den = 1 ∧ newLen ≤ q)
  | .otherStrK _ => false

/-- Deps the spec sentence says should fire. -/
def specLengthDeps (m : List (RKey × Nat)) (newLen : ℚ) : List Nat :=
  (m.filter (fun kv => specLengthFires newLen kv.1)).map (fun kv => kv.2)

/-- C3, counterexample.  A dep registered under the non-integer numeric
string key `'2.5'` with the new length `2`: the code fires it
(`'2.5' >= 2` is true in JavaScript), while the claim's
"integer keys `≥` newLength plus `'length'`, and no other dep" firing
set is empty, so the fired set is not the claimed one. -/
theorem lengthTrigger_fires_noninteger_key :
    lengthTriggerDeps [(RKey.numStrK (mkRat 5 2), 0)] 2 = [0] ∧
    specLengthDeps [(RKey.numStrK (mkRat 5 2), 0)] 2 = [] := by
  constructor <;> decide

/-- C3, amended.  The set of deps fired by `SET` on an array's
`"length"` is exactly the dep under `'length'` plus every dep under a
non-symbol key whose numeric value is at least the new length — integer
or not — and no symbol-keyed or non-numeric-keyed dep. -/
theorem lengthTrigger_fired_deps (m : List (RKey × Nat)) (newLen : ℚ) (d : Nat) :
    d ∈ lengthTriggerDeps m newLen ↔
      ∃ k, (k, d) ∈ m ∧ (k = RKey.lengthK ∨ ∃ q, k = RKey.numStrK q ∧ newLen ≤ q) := by
  unfold lengthTriggerDeps
  rw [List.mem_map]
  constructor
  · rintro ⟨⟨k, d'⟩, hmem, rfl⟩
    obtain ⟨hm, hf⟩ := List.mem_filter.mp hmem
    refine ⟨k, hm, ?_⟩
    cases k with
    | symK i => simp [lengthFires] at hf
    | lengthK => exact Or.inl rfl
    | numStrK q =>
      refine Or.inr ⟨q, rfl, ?_⟩
      simpa [lengthFires] using hf
    | otherStrK str => simp [lengthFires] at hf
  · rintro ⟨k, hm, hk⟩
    refine ⟨(k, d), List.mem_filter.mpr ⟨hm, ?_⟩, rfl⟩
    rcases hk with rfl | ⟨q, rfl, hq⟩
    · rfl
    · simpa [lengthFires] using hq

/-! ## `pauseScheduling` / `resetScheduling` depth counter (`effect.ts`)

`pauseScheduleStack` is a plain JavaScript number: `resetScheduling()`
decrements it unconditionally, so it can go negative; the drain loop
`while (!pauseScheduleStack && queueEffectSchedulers.length)` runs
exactly when the counter is `0`.  We model the exported call surface as
an operation sequence: `pause`, `reset`, and `enq` (a
`scheduleEffects` push into the deferred buffer; in the source these
pushes happen only between the `pauseScheduling()`/`resetScheduling()`
pair inside `triggerEffects`).  Draining shifts the whole buffer front
to back into `drained` (the queued schedulers themselves are opaque
consumers). -/

inductive SchedOp where
  | pause
  | reset
  | enq (schedId : Nat)
deriving DecidableEq

structure PSState where
  depth : Int
  buffer : List Nat
  drained : List Nat
deriving DecidableEq, Repr

def psStep (s : PSState) : SchedOp → PSState
  | .pause => { s with depth := s.depth + 1 }
  | .reset =>
    let d := s.depth - 1
    if d = 0 then
      { depth := d, buffer := [], drained := s.drained ++ s.buffer }
    else { s with depth := d }
  | .enq n => { s with buffer := s.buffer ++ [n] }

def psRun (ops : List SchedOp) (s : PSState) : PSState :=
  ops.foldl psStep s

def psInit : PSState := { depth := 0, buffer := [], drained := [] }

/-- The scheduler ids enqueued by an operation sequence, in order. -/
def enqueuesOf (ops : List SchedOp) : List Nat :=
  ops.filterMap (fun op => match op with | .enq n => some n | _ => none)

/-- Well-nested call sequences: starting from depth `d`, no prefix ever
sees more `resetScheduling` than `pauseScheduling` calls, and
`scheduleEffects` pushes happen only while scheduling is paused (as
`triggerEffects` guarantees). -/
def psBalanced (d : Int) : List SchedOp → Bool
  | [] => true
  | .pause :: rest => psBalanced (d + 1) rest
  | .reset :: rest => decide (0 ≤ d - 1) && psBalanced (d - 1) rest
  | .enq _ :: rest => decide (0 < d) && psBalanced d rest

/-- C9, counterexample.  The claim quantifies over *every* sequence of
`pauseScheduling`/`resetScheduling` calls, but a single unmatched
`resetScheduling()` drives the counter to `-1`: it is not non-negative. -/
theorem pause_depth_negative_after_lone_reset :
    (psRun [SchedOp.reset] psInit).depth < 0 := by
  decide

theorem psRun_balanced_inv (ops : List SchedOp) : ∀ s : PSState,
    psBalanced s.depth ops = true → 0 ≤ s.depth → (s.depth = 0 → s.buffer = []) →
    0 ≤ (psRun ops s).depth ∧
    (psRun ops s).drained ++ (psRun ops s).buffer = s.drained ++ s.buffer ++ enqueuesOf ops ∧
    ((psRun ops s).depth = 0 → (psRun ops s).buffer = []) := by
  induction ops with
  | nil =>
    intro s _ hnn hz
    exact ⟨hnn, by simp [psRun, enqueuesOf], hz⟩
  | cons op rest ih =>
    intro s hbal hnn hz
    have hstep : psRun (op :: rest) s = psRun rest (psStep s op) := rfl
    cases op with
    | pause =>
      have hbal' : psBalanced (s.depth + 1) rest = true := by
        simpa [psBalanced] using hbal
      have h := ih (psStep s .pause) (by simpa [psStep] using hbal')
        (by simp [psStep]; omega) (by simp [psStep]; omega)
      rw [hstep]
      refine ⟨h.1, ?_, h.2.2⟩
      rw [h.2.1]
      simp [psStep, enqueuesOf]
    | reset =>
      have hb := by simpa [psBalanced, Bool.and_eq_true] using hbal
      obtain ⟨hge, hbal'⟩ := hb
      by_cases hd : s.depth - 1 = 0
      · have hstepv : psStep s .reset =
            { depth := s.depth - 1, buffer := [], drained := s.drained ++ s.buffer } := by
          simp [psStep, hd]
        have h := ih (psStep s .reset)
          (by rw [hstepv]; simpa [hd] using hbal')
          (by rw [hstepv]; dsimp only; omega)
          (by rw [hstepv]; intro _; rfl)
        rw [hstep]
        refine ⟨h.1, ?_, h.2.2⟩
        rw [h.2.1, hstepv]
        simp [enqueuesOf]
      · have hstepv : psStep s .reset = { s with depth := s.depth - 1 } := by
          simp [psStep, hd]
        have h := ih (psStep s .reset)
          (by rw [hstepv]; exact hbal')
          (by rw [hstepv]; dsimp only; omega)
          (by rw [hstepv]; dsimp only; intro hc; exact absurd hc hd)
        rw [hstep]
        refine ⟨h.1, ?_, h.2.2⟩
        rw [h.2.1, hstepv]
        simp [enqueuesOf]
    | enq n =>
      have hb := by simpa [psBalanced, Bool.and_eq_true] using hbal
      obtain ⟨hpos, hbal'⟩ := hb
      have hstepv : psStep s (.enq n) = { s with buffer := s.buffer ++ [n] } := rfl
      have h := ih (psStep s (.enq n))
        (by rw [hstepv]; exact hbal')
        (by rw [hstepv]; dsimp only; omega)
        (by rw [hstepv]; dsimp only; intro hc; omega)
      rw [hstep]
      refine ⟨h.1, ?_, h.2.2⟩
      rw [h.2.1, hstepv]
      simp [enqueuesOf]

/-- C9, amended.  For every call sequence in which no prefix contains
more `resetScheduling` than `pauseScheduling` calls (and deferred-buffer
pushes happen only while paused, as `triggerEffects` guarantees), the
depth counter stays non-negative, the buffer and drain record together
list all enqueued callbacks in FIFO order, and whenever the counter
returns to `0` the buffer has been fully drained. -/
theorem pause_reset_depth_nonneg_fifo (ops : List SchedOp)
    (hbal : psBalanced 0 ops = true) :
    0 ≤ (psRun ops psInit).depth ∧
    (psRun ops psInit).drained ++ (psRun ops psInit).buffer = enqueuesOf ops ∧
    ((psRun ops psInit).depth = 0 → (psRun ops psInit).buffer = []) := by
  have h := psRun_balanced_inv ops psInit hbal (by decide) (fun _ => rfl)
  refine ⟨h.1, ?_, h.2.2⟩
  rw [h.2.1]
  rfl

/-- C9 witness: a concrete balanced batch — pause, enqueue schedulers
`1` and `2`, matching reset — drains both in FIFO order with the counter
back at `0`. -/
theorem pause_reset_depth_nonneg_fifo_witness :
    0 ≤ (psRun [SchedOp.pause, SchedOp.enq 1, SchedOp.enq 2, SchedOp.reset] psInit).depth ∧
    (psRun [SchedOp.pause, SchedOp.enq 1, SchedOp.enq 2, SchedOp.reset] psInit).drained ++
        (psRun [SchedOp.pause, SchedOp.enq 1, SchedOp.enq 2, SchedOp.reset] psInit).buffer =
      enqueuesOf [SchedOp.pause, SchedOp.enq 1, SchedOp.enq 2, SchedOp.reset] ∧
    ((psRun [SchedOp.pause, SchedOp.enq 1, SchedOp.enq 2, SchedOp.reset] psInit).depth = 0 →
      (psRun [SchedOp.pause, SchedOp.enq 1, SchedOp.enq 2, SchedOp.reset] psInit).buffer = []) :=
  pause_reset_depth_nonneg_fifo _ (by decide)

/-! ## The proxy trap layer (`baseHandlers.ts`)

`BaseReactiveHandler.get` and the `ReadonlyReactiveHandler` overrides.
Property keys are modelled by shape: the four `ReactiveFlags` keys, the
string `'hasOwnProperty'`, the instrumented array method names, the
`isNonTrackableKeys` entries (`__proto__`, `__v_isRef`, `__isVue`),
plain string keys, and built-in / user symbols.  Values are primitives,
plain objects (by id), or refs.  A get returns a result descriptor plus
the list of `track` calls it performs; `Reflect.get` is an entry lookup
with `undefined` default. -/

inductive TrackOp where
  | get
  | has
  | iterate
deriving DecidableEq

inductive ArrM where
  | includes
  | indexOf
  | lastIndexOf
  | push
  | pop
  | shift
  | unshift
  | splice
deriving DecidableEq

inductive PKey where
  | reactiveFlag
  | readonlyFlag
  | shallowFlag
  | rawFlag
  | hasOwnK
  | arrMethodK (m : ArrM)
  | protoK
  | vIsRefK
  | isVueK
  | strK (s : String)
  | builtinSymK (id : Nat)
  | symK (id : Nat)
deriving DecidableEq

inductive PVal where
  | undef
  | prim (n : Nat)
  | objV (id : Nat)
  | refV (ro : Bool) (value : Nat)
deriving DecidableEq

structure PTarget where
  isArr : Bool
  entries : List (PKey × PVal)

/-- `Reflect.get(target, key)`. -/
def lookupKey (t : PTarget) (k : PKey) : PVal :=
  match t.entries.find? (fun kv => kv.1 = k) with
  | some kv => kv.2
  | none => .undef

inductive GetRes where
  | boolRes (b : Bool)
  | rawRes
  | arrInstrRes (m : ArrM)
  | hasOwnFnRes
  | plainRes (v : PVal)
  | refValueRes (n : Nat)
  | wrapReadonlyRes (id : Nat)
  | wrapReactiveRes (id : Nat)
deriving DecidableEq

structure TraceOut (α : Type) where
  res : α
  tracks : List (TrackOp × PKey)

def flagRes (ro shallow : Bool) : PKey → Option GetRes
  | .reactiveFlag => some (.boolRes (!ro))
  | .readonlyFlag => some (.boolRes ro)
  | .shallowFlag => some (.boolRes shallow)
  | .rawFlag => some .rawRes
  | _ => none

def arrMethodOf : PKey → Option ArrM
  | .arrMethodK m => some m
  | _ => none

def isBuiltinSym : PKey → Bool
  | .builtinSymK _ => true
  | _ => false

def isNonTrackable : PKey → Bool
  | .protoK => true
  | .vIsRefK => true
  | .isVueK => true
  | _ => false

def isSymbolKey : PKey → Bool
  | .builtinSymK _ => true
  | .symK _ => true
  | _ => false

/-- `isIntegerKey`: a canonical non-negative decimal string. -/
def isIntegerKeyP : PKey → Bool
  | .strK s =>
    match s.toNat? with
    | some n => toString n = s
    | none => false
  | _ => false

/-- `BaseReactiveHandler.get(target, key)`, parameterised by the
`_isReadonly` / `_shallow` configuration. -/
def baseGet (ro shallow : Bool) (t : PTarget) (k : PKey) : TraceOut GetRes :=
  match flagRes ro shallow k with
  | some r => ⟨r, []⟩
  | none =>
    match (if !ro && t.isArr then arrMethodOf k else none) with
    | some m => ⟨.arrInstrRes m, []⟩
    | none =>
      if k = .hasOwnK then ⟨.hasOwnFnRes, []⟩
      else
        let res := lookupKey t k
        if (if isSymbolKey k then isBuiltinSym k else isNonTrackable k) then ⟨.plainRes res, []⟩
        else
          let tracks := if !ro then [(TrackOp.get, k)] else []
          if shallow then ⟨.plainRes res, tracks⟩
          else
            match res with
            | .refV _ v =>
              if t.isArr && isIntegerKeyP k then ⟨.plainRes res, tracks⟩
              else ⟨.refValueRes v, tracks⟩
            | .objV id =>
              if ro then ⟨.wrapReadonlyRes id, tracks⟩ else ⟨.wrapReactiveRes id, tracks⟩
            | v => ⟨.plainRes v, tracks⟩

/-- `ReadonlyReactiveHandler.set`: warn in dev, report success, leave the
target untouched. -/
def readonlySet (t : PTarget) (_k : PKey) (_v : PVal) : Bool × PTarget := (true, t)

/-- `ReadonlyReactiveHandler.deleteProperty`: warn in dev, report
success, leave the target untouched. -/
def readonlyDeleteProperty (t : PTarget) (_k : PKey) : Bool × PTarget := (true, t)

/-- The shared `hasOwnProperty` function returned by the get trap for
the key `'hasOwnProperty'`: it calls `track(obj, HAS, key)`
unconditionally when invoked. -/
def hasOwnPropertyCall (t : PTarget) (k : PKey) : TraceOut Bool :=
  ⟨(t.entries.find? (fun kv => kv.1 = k)).isSome, [(TrackOp.has, k)]⟩

def ptarget0 : PTarget := { isArr := false, entries := [(PKey.strK "x", PVal.prim 1)] }

/-- C5, counterexample.  Reading `'hasOwnProperty'` through a readonly
trap hands out the shared instrumented function, and invoking it calls
`track` (a `HAS` access) — so "track is never called" fails for an
operation performed through a readonly proxy. -/
theorem readonly_hasOwnProperty_call_tracks :
    (baseGet true false ptarget0 PKey.hasOwnK).res = GetRes.hasOwnFnRes ∧
    (hasOwnPropertyCall ptarget0 (PKey.strK "x")).tracks ≠ [] := by
  constructor
  · rfl
  · decide

/-- C5, amended.  For both readonly variants (deep and shallow), the
get trap itself never calls `track`, and set / delete leave the target
unchanged while reporting success; the one exception is the
`hasOwnProperty` method the get trap returns, which performs a `HAS`
track each time it is invoked. -/
theorem readonly_traps_track_free (shallow : Bool) (t : PTarget) (k : PKey) (v : PVal) :
    (baseGet true shallow t k).tracks = [] ∧
    readonlySet t k v = (true, t) ∧
    readonlyDeleteProperty t k = (true, t) ∧
    (baseGet true shallow t PKey.hasOwnK).res = GetRes.hasOwnFnRes ∧
    (hasOwnPropertyCall t k).tracks = [(TrackOp.has, k)] := by
  refine ⟨?_, rfl, rfl, rfl, rfl⟩
  unfold baseGet
  dsimp only
  repeat' split
  all_goals first | rfl | simp_all

/-! ## The microtask scheduler (`scheduler.ts`)

Jobs are identified by `key` (JavaScript object identity); `jid` is the
optional `id` field (`none` plays `Infinity` in the orderings), and a
job's behaviour when invoked is one of: return normally, throw an error
value, or call `queueJob(self)`.  The development build is modelled
(`__DEV__ = true`), so the recursion guard is active.  `handleError` and
`callWithErrorHandling` live in `errorHandling.ts`, which is not among
the sources; they are modelled from the spec: the external error handler
receives an error value and an error-code enum, recorded in `handled`;
`callWithErrorHandling` catches and never rethrows.  Loops that can grow
their own work queue take fuel; `none` means the fuel ran out. -/

inductive ErrCode where
  | schedulerCode
  | appErrorHandlerCode
deriving DecidableEq

inductive JobAct where
  | jobNoop
  | jobThrow (err : Nat)
  | jobRequeueSelf
deriving DecidableEq

structure Job where
  key : Nat
  jid : Option Int
  pre : Bool
  active : Bool
  allowRecurse : Bool
  act : JobAct
deriving DecidableEq

structure SchedSt where
  queue : List Job
  flushIndex : Nat
  isFlushing : Bool
  isFlushPending : Bool
  pendingPostFlushCbs : List Job
  activePostFlushCbs : Option (List Job)
  postFlushIndex : Nat
deriving DecidableEq

structure SchedLog where
  invoked : List Nat
  handled : List (ErrCode × Nat)
deriving DecidableEq

def jobDefault : Job :=
  { key := 0, jid := none, pre := false, active := true, allowRecurse := false,
    act := JobAct.jobNoop }

/-- `middleJobId < id || (middleJobId === id && middleJob.pre)` where a
missing id is `Infinity` (never `<` and never `===` a number). -/
def idLtOrPre (mjid : Option Int) (mpre : Bool) (id : Int) : Bool :=
  match mjid with
  | none => false
  | some m => decide (m < id) || (decide (m = id) && mpre)

/-- The binary-search loop of `findInsertionIndex` over
`[start, e)` (`>>> 1` is division by two).  The loop halves the
interval each pass, so a fuel of `e - start + 1` — below, the queue
length plus one — is always enough; fuel is only a device to make the
recursion structural. -/
def findLoop (q : List Job) (id : Int) : Nat → Nat → Nat → Nat
  | 0, start, _ => start
  | fuel + 1, start, e =>
    if start < e then
      let middle := (start + e) / 2
      let mj := q.getD middle jobDefault
      if idLtOrPre mj.jid mj.pre id then findLoop q id fuel (middle + 1) e
      else findLoop q id fuel start middle
    else start

/-- `findInsertionIndex(id)`: binary search in `[flushIndex + 1, queue.length)`. -/
def findInsertionIndex (q : List Job) (flushIndex : Nat) (id : Int) : Nat :=
  findLoop q id (q.length + 1) (flushIndex + 1) q.length

/-- `queue.includes(job, start)` under identity-by-`key`. -/
def jobIncludesFrom (q : List Job) (k : Nat) (start : Nat) : Bool :=
  (q.drop start).any (fun j => j.key = k)

/-- The insertion index `queueJob(job)` uses, or `none` when the dedup
check rejects the job.  An id-bearing job is spliced at
`findInsertionIndex(id)` (clamped to the length, as `splice` clamps);
an id-less job is pushed at the end. -/
def queueJobIdx (st : SchedSt) (job : Job) : Option Nat :=
  let start := if st.isFlushing && job.allowRecurse then st.flushIndex + 1 else st.flushIndex
  if st.queue.isEmpty || !(jobIncludesFrom st.queue job.key start) then
    some (match job.jid with
      | none => st.queue.length
      | some id => min (findInsertionIndex st.queue st.flushIndex id) st.queue.length)
  else none

/-- `queueFlush()`: without the promise machinery, just the pending flag. -/
def queueFlushM (st : SchedSt) : SchedSt :=
  if !st.isFlushing && !st.isFlushPending then { st with isFlushPending := true } else st

/-- `queueJob(job)`. -/
def queueJobM (st : SchedSt) (job : Job) : SchedSt :=
  match queueJobIdx st job with
  | some i => queueFlushM { st with queue := st.queue.insertIdx i job }
  | none => st

/-- The `flushJobs` sort comparator as a stable-sort precedence: `le a b`
iff the comparator `(a, b) => getId(a) - getId(b)` (tie-broken by `pre`)
does not put `b` strictly before `a`; two id-less jobs compare `NaN`,
which a stable sort leaves in order. -/
def jobLE (a b : Job) : Bool :=
  match a.jid, b.jid with
  | none, none => true
  | some _, none => true
  | none, some _ => false
  | some x, some y => if x = y then !(b.pre && !a.pre) else decide (x ≤ y)

/-- The `flushPostFlushCbs` sort precedence: `(a, b) => getId(a) - getId(b)`. -/
def postLE (a b : Job) : Bool :=
  match a.jid, b.jid with
  | none, none => true
  | some _, none => true
  | none, some _ => false
  | some x, some y => decide (x ≤ y)

/-- `[...new Set(cbs)]`: first-occurrence deduplication by identity.
Fuel (the list length, which only shrinks) keeps the recursion
structural. -/
def dedupKeysF : Nat → List Job → List Job
  | 0, _ => []
  | _, [] => []
  | fuel + 1, j :: rest => j :: dedupKeysF fuel (rest.filter (fun x => x.key ≠ j.key))

def dedupKeys (l : List Job) : List Job := dedupKeysF l.length l

def seenGet (seen : List (Nat × Nat)) (k : Nat) : Option Nat :=
  (seen.find? (fun p => p.1 = k)).map (fun p => p.2)

def seenSet (seen : List (Nat × Nat)) (k : Nat) (v : Nat) : List (Nat × Nat) :=
  match seen with
  | [] => [(k, v)]
  | p :: rest => if p.1 = k then (k, v) :: rest else p :: seenSet rest k v

/-- `RECURSION_LIMIT = 100`. -/
def recursionLimit : Nat := 100

/-- `checkRecursiveUpdates(seen, fn)`: bump the per-flush count; above
the limit, report through the external error handler with code
`APP_ERROR_HANDLER` and return `true` so the caller skips the job.
Result: (skip?, updated seen, handler calls). -/
def checkRecursiveUpdates (seen : List (Nat × Nat)) (j : Job) :
    Bool × List (Nat × Nat) × List (ErrCode × Nat) :=
  match seenGet seen j.key with
  | none => (false, seenSet seen j.key 1, [])
  | some c =>
    if recursionLimit < c then (true, seen, [(ErrCode.appErrorHandlerCode, 0)])
    else (false, seenSet seen j.key (c + 1), [])

/-- Invoking a job: return, throw, or `queueJob(self)`. -/
def execJob (st : SchedSt) (j : Job) : Except Nat SchedSt :=
  match j.act with
  | .jobNoop => .ok st
  | .jobThrow e => .error e
  | .jobRequeueSelf => .ok (queueJobM st j)

/-- Modelled from the spec: `callWithErrorHandling(fn, null, code)` from
`errorHandling.ts` (not among the sources) — run the function, catch any
raised error, route it to the external error handler together with the
error code, and return normally. -/
def callWithErrorHandling (st : SchedSt) (j : Job) (code : ErrCode) (log : SchedLog) :
    SchedSt × SchedLog :=
  match execJob st j with
  | .ok st' => (st', log)
  | .error e => (st, { log with handled := log.handled ++ [(code, e)] })

/-- The main loop of `flushJobs`: for `flushIndex` over the queue, skip
inactive jobs, run the dev recursion check, and invoke the job under
`callWithErrorHandling(job, null, ErrorCodes.SCHEDULER)`.  `invoked`
records each actual invocation. -/
def flushLoop : Nat → SchedSt → List (Nat × Nat) → SchedLog →
    Option (SchedSt × List (Nat × Nat) × SchedLog)
  | 0, _, _, _ => none
  | fuel + 1, st, seen, log =>
    if h : st.flushIndex < st.queue.length then
      let job := st.queue.get ⟨st.flushIndex, h⟩
      if job.active then
        let ck := checkRecursiveUpdates seen job
        if ck.1 then
          flushLoop fuel { st with flushIndex := st.flushIndex + 1 } ck.2.1
            { log with handled := log.handled ++ ck.2.2 }
        else
          let log1 := { log with invoked := log.invoked ++ [job.key] }
          let r := callWithErrorHandling st job ErrCode.schedulerCode log1
          flushLoop fuel { r.1 with flushIndex := r.1.flushIndex + 1 } ck.2.1 r.2
      else flushLoop fuel { st with flushIndex := st.flushIndex + 1 } seen log
    else some (st, seen, log)

/-- The `postFlushIndex` loop of `flushPostFlushCbs`: callbacks are
invoked directly (no error-handling wrapper), so a raised error
propagates out, leaving the drain mid-way. -/
def postLoop : Nat → SchedSt → List (Nat × Nat) → SchedLog →
    Option (Except (Nat × SchedSt × SchedLog) (SchedSt × List (Nat × Nat) × SchedLog))
  | 0, _, _, _ => none
  | fuel + 1, st, seen, log =>
    match _h : st.activePostFlushCbs with
    | none => some (.ok (st, seen, log))
    | some acts =>
      if hlt : st.postFlushIndex < acts.length then
        let cb := acts.get ⟨st.postFlushIndex, hlt⟩
        let ck := checkRecursiveUpdates seen cb
        if ck.1 then
          postLoop fuel { st with postFlushIndex := st.postFlushIndex + 1 } ck.2.1
            { log with handled := log.handled ++ ck.2.2 }
        else
          let log1 := { log with invoked := log.invoked ++ [cb.key] }
          match execJob st cb with
          | .error e => some (.error (e, st, log1))
          | .ok st2 => postLoop fuel { st2 with postFlushIndex := st.postFlushIndex + 1 } ck.2.1 log1
      else
        some (.ok ({ st with activePostFlushCbs := none, postFlushIndex := 0 }, seen, log))

/-- `flushPostFlushCbs(seen)`: dedupe and sort the pending callbacks;
if a drain is already active, append to it (re-entrant call); otherwise
drain from `postFlushIndex = 0`. -/
def flushPostFlushCbs (fuel : Nat) (st : SchedSt) (seen : List (Nat × Nat)) (log : SchedLog) :
    Option (Except (Nat × SchedSt × SchedLog) (SchedSt × List (Nat × Nat) × SchedLog)) :=
  if st.pendingPostFlushCbs.isEmpty then some (.ok (st, seen, log))
  else
    let deduped := (dedupKeys st.pendingPostFlushCbs).mergeSort postLE
    let st1 := { st with pendingPostFlushCbs := [] }
    match st1.activePostFlushCbs with
    | some l => some (.ok ({ st1 with activePostFlushCbs := some (l ++ deduped) }, seen, log))
    | none =>
      postLoop fuel { st1 with activePostFlushCbs := some deduped, postFlushIndex := 0 } seen log

/-- `flushJobs(seen)`: clear pending, set flushing, sort, run the main
loop; in the `finally`, reset `flushIndex`, clear the queue, drain the
post-flush callbacks (an error there propagates with the rest of the
`finally` skipped), clear `isFlushing`, and recurse while work remains. -/
def flushJobs : Nat → SchedSt → List (Nat × Nat) → SchedLog →
    Option (Except (Nat × SchedLog) (SchedSt × SchedLog))
  | 0, _, _, _ => none
  | fuel + 1, st, seen, log =>
    let stA := { st with isFlushPending := false, isFlushing := true,
                         queue := st.queue.mergeSort jobLE }
    match flushLoop (fuel + 1) stA seen log with
    | none => none
    | some (st1, seen1, log1) =>
      let st2 := { st1 with flushIndex := 0, queue := [] }
      match flushPostFlushCbs (fuel + 1) st2 seen1 log1 with
      | none => none
      | some (.error (e, _, log2)) => some (.error (e, log2))
      | some (.ok (st3, seen2, log2)) =>
        let st4 := { st3 with isFlushing := false }
        if st4.queue.isEmpty && st4.pendingPostFlushCbs.isEmpty then some (.ok (st4, log2))
        else flushJobs fuel st4 seen2 log2

/-- The loop of `flushPreFlushCbs(instance, seen, i)`: pop each `pre`
job at or after `i` (filtered by owner uid when given) and invoke it
directly — again without any error-handling wrapper. -/
def preLoop : Nat → SchedSt → Option Nat → List (Nat × Nat) → Nat → SchedLog →
    Option (Except (Nat × SchedSt × SchedLog) (SchedSt × List (Nat × Nat) × SchedLog))
  | 0, _, _, _, _, _ => none
  | fuel + 1, st, inst, seen, i, log =>
    if h : i < st.queue.length then
      let cb := st.queue.get ⟨i, h⟩
      if cb.pre then
        if (match inst with
            | some uid => decide (cb.jid ≠ some (uid : Int))
            | none => false) then
          preLoop fuel st inst seen (i + 1) log
        else
          let ck := checkRecursiveUpdates seen cb
          if ck.1 then
            preLoop fuel st inst ck.2.1 (i + 1) { log with handled := log.handled ++ ck.2.2 }
          else
            let st1 := { st with queue := st.queue.eraseIdx i }
            let log1 := { log with invoked := log.invoked ++ [cb.key] }
            match execJob st1 cb with
            | .error e => some (.error (e, st1, log1))
            | .ok st2 => preLoop fuel st2 inst ck.2.1 i log1
      else preLoop fuel st inst seen (i + 1) log
    else some (.ok (st, seen, log))

/-- `flushPreFlushCbs(instance?)` with the default start index. -/
def flushPreFlushCbs (fuel : Nat) (st : SchedSt) (inst : Option Nat) (log : SchedLog) :
    Option (Except (Nat × SchedSt × SchedLog) (SchedSt × List (Nat × Nat) × SchedLog)) :=
  preLoop fuel st inst [] (if st.isFlushing then st.flushIndex + 1 else 0) log

/-- A scheduler state holding queue `q`, as `queueFlush` leaves it just
before the microtask runs `flushJobs`. -/
def mkSchedSt (q : List Job) : SchedSt :=
  { queue := q, flushIndex := 0, isFlushing := false, isFlushPending := true,
    pendingPostFlushCbs := [], activePostFlushCbs := none, postFlushIndex := 0 }

/-! ### Insertion position of `queueJob` -/

theorem findLoop_ge (q : List Job) (id : Int) :
    ∀ fuel start e, start ≤ findLoop q id fuel start e := by
  intro fuel
  induction fuel with
  | zero =>
    intro start e
    exact le_refl _
  | succ n ih =>
    intro start e
    rw [findLoop]
    by_cases h : start < e
    · simp only [h, if_true]
      have hmid_ge : start ≤ (start + e) / 2 := by
        rw [Nat.le_div_iff_mul_le (by omega)]
        omega
      split
      · have := ih ((start + e) / 2 + 1) e
        omega
      · exact ih start ((start + e) / 2)
    · simp [h]

theorem findInsertionIndex_ge (q : List Job) (flushIndex : Nat) (id : Int) :
    flushIndex + 1 ≤ findInsertionIndex q flushIndex id :=
  findLoop_ge q id _ (flushIndex + 1) q.length

/-- C8, counterexample.  In the idle scheduler state (`flushIndex = 0`,
empty queue) `queueJob` inserts an id-less job at index `0`, which is
not strictly greater than `flushIndex`. -/
theorem queueJob_inserts_at_flushIndex :
    queueJobIdx (mkSchedSt []) jobDefault = some 0 ∧ ¬ (mkSchedSt []).flushIndex < 0 := by
  constructor
  · rfl
  · decide

/-- C8, amended.  Whenever the queue extends past `flushIndex` at call
time — as the flush loop guarantees while it is running — every
insertion `queueJob` performs lands at an index strictly greater than
`flushIndex`: the binary search never returns less than
`flushIndex + 1`, and the push path appends past the end. -/
theorem queueJob_insertion_after_flushIndex (st : SchedSt) (job : Job) (i : Nat)
    (hq : st.flushIndex < st.queue.length) (hins : queueJobIdx st job = some i) :
    st.flushIndex < i := by
  unfold queueJobIdx at hins
  dsimp only at hins
  repeat' split at hins
  all_goals
    first
      | exact Option.noConfusion hins
      | (have hv := Option.some.inj hins
         omega)
      | (rename_i id heq
         have hv := Option.some.inj hins
         have h1 := findInsertionIndex_ge st.queue st.flushIndex id
         have h2 : st.flushIndex + 1 ≤
             min (findInsertionIndex st.queue st.flushIndex id) st.queue.length :=
           le_min h1 (by omega)
         omega)

/-- C8 witness: with one queued job and `flushIndex = 0`, inserting an
id-bearing job lands at index `1 > 0`. -/
theorem queueJob_insertion_after_flushIndex_witness :
    queueJobIdx (mkSchedSt [jobDefault]) { jobDefault with key := 1, jid := some 3 } = some 1 ∧
    (mkSchedSt [jobDefault]).flushIndex < 1 := by
  refine ⟨by decide, ?_⟩
  exact queueJob_insertion_after_flushIndex (mkSchedSt [jobDefault])
    { jobDefault with key := 1, jid := some 3 } 1 (by decide) (by decide)

/-! ### The recursion guard (`checkRecursiveUpdates`) on a self-requeueing job -/

/-- The loop state of `flushJobs` after `i` invocations of a job that
requeues itself on every run: `i + 1` copies in the queue, `flushIndex`
at the `i`-th. -/
def stAtC4 (j : Job) (i : Nat) : SchedSt :=
  { queue := List.replicate (i + 1) j, flushIndex := i, isFlushing := true,
    isFlushPending := false, pendingPostFlushCbs := [], activePostFlushCbs := none,
    postFlushIndex := 0 }

theorem findLoop_start_eq_end (q : List Job) (id : Int) (fuel start : Nat) :
    findLoop q id (fuel + 1) start start = start := by
  rw [findLoop]
  simp

theorem queueJobM_stAtC4 (j : Job) (i : Nat) (har : j.allowRecurse = true) :
    queueJobM (stAtC4 j i) j = { stAtC4 j i with queue := List.replicate (i + 2) j } := by
  unfold queueJobM queueJobIdx
  have hstart : (if (stAtC4 j i).isFlushing && j.allowRecurse then
      (stAtC4 j i).flushIndex + 1 else (stAtC4 j i).flushIndex) = i + 1 := by
    simp [stAtC4, har]
  rw [hstart]
  dsimp only
  have hinc : jobIncludesFrom (stAtC4 j i).queue j.key (i + 1) = false := by
    unfold jobIncludesFrom
    simp [stAtC4, List.drop_replicate]
  rw [hinc]
  have hempty : ((stAtC4 j i).queue.isEmpty || !false) = true := by
    simp
  rw [if_pos hempty]
  have hidx : (match j.jid with
      | none => (stAtC4 j i).queue.length
      | some id => min (findInsertionIndex (stAtC4 j i).queue (stAtC4 j i).flushIndex id)
          (stAtC4 j i).queue.length) = i + 1 := by
    cases hj : j.jid with
    | none => simp [stAtC4]
    | some id =>
      unfold findInsertionIndex
      simp only [stAtC4, List.length_replicate]
      rw [findLoop_start_eq_end]
      simp
  rw [hidx]
  have hins : List.insertIdx (i + 1) j (stAtC4 j i).queue = List.replicate (i + 2) j := by
    have hq : (stAtC4 j i).queue = List.replicate (i + 1) j := rfl
    rw [hq]
    have happ := List.insertIdx_length_self (List.replicate (i + 1) j) j
    rw [List.length_replicate] at happ
    rw [happ, ← List.replicate_succ']
  unfold queueFlushM
  simp only [stAtC4] at hins ⊢
  rw [hins]
  simp

theorem checkRecursive_fresh (j : Job) :
    checkRecursiveUpdates [] j = (false, [(j.key, 1)], []) := rfl

theorem checkRecursive_bump (j : Job) (i : Nat) (hi : i ≤ 100) :
    checkRecursiveUpdates [(j.key, i)] j = (false, [(j.key, i + 1)], []) := by
  have hnot : ¬ recursionLimit < i := by
    unfold recursionLimit
    omega
  simp [checkRecursiveUpdates, seenGet, seenSet, List.find?_cons, hnot]

theorem checkRecursive_trip (j : Job) :
    checkRecursiveUpdates [(j.key, 101)] j =
      (true, [(j.key, 101)], [(ErrCode.appErrorHandlerCode, 0)]) := by
  simp [checkRecursiveUpdates, seenGet, seenSet, List.find?_cons, recursionLimit]

theorem flushLoop_c4_step (j : Job) (i fuel : Nat) (log : SchedLog)
    (hact : j.act = JobAct.jobRequeueSelf) (har : j.allowRecurse = true)
    (hactive : j.active = true)
    (hck : checkRecursiveUpdates [(j.key, i)] j = (false, [(j.key, i + 1)], [])) :
    flushLoop (fuel + 1) (stAtC4 j i) [(j.key, i)] log =
      flushLoop fuel (stAtC4 j (i + 1)) [(j.key, i + 1)]
        { log with invoked := log.invoked ++ [j.key] } := by
  have hlt : (stAtC4 j i).flushIndex < (stAtC4 j i).queue.length := by
    simp [stAtC4]
  rw [flushLoop, dif_pos hlt]
  dsimp only
  have hjob : (stAtC4 j i).queue.get ⟨(stAtC4 j i).flushIndex, hlt⟩ = j :=
    by simp only [stAtC4, List.get_eq_getElem, List.getElem_replicate]
  rw [hjob, hactive, if_pos rfl, hck]
  dsimp only
  rw [if_neg (by simp)]
  unfold callWithErrorHandling execJob
  rw [hact]
  dsimp only
  rw [queueJobM_stAtC4 j i har]
  rfl

theorem flushLoop_c4_first (j : Job) (fuel : Nat) (log : SchedLog)
    (hact : j.act = JobAct.jobRequeueSelf) (har : j.allowRecurse = true)
    (hactive : j.active = true) :
    flushLoop (fuel + 1) (stAtC4 j 0) [] log =
      flushLoop fuel (stAtC4 j 1) [(j.key, 1)]
        { log with invoked := log.invoked ++ [j.key] } := by
  have hlt : (stAtC4 j 0).flushIndex < (stAtC4 j 0).queue.length := by
    simp [stAtC4]
  rw [flushLoop, dif_pos hlt]
  dsimp only
  have hjob : (stAtC4 j 0).queue.get ⟨(stAtC4 j 0).flushIndex, hlt⟩ = j :=
    by simp only [stAtC4, List.get_eq_getElem, List.getElem_replicate]
  rw [hjob, hactive, if_pos rfl, checkRecursive_fresh]
  dsimp only
  rw [if_neg (by simp)]
  unfold callWithErrorHandling execJob
  rw [hact]
  dsimp only
  rw [queueJobM_stAtC4 j 0 har]
  rfl

/-- The loop state after the recursion guard fires: `102` queue entries,
`flushIndex` past the end. -/
def stEndC4 (j : Job) : SchedSt := { stAtC4 j 101 with flushIndex := 102 }

theorem flushLoop_c4_trip (j : Job) (fuel : Nat) (log : SchedLog)
    (hactive : j.active = true) :
    flushLoop (fuel + 2) (stAtC4 j 101) [(j.key, 101)] log =
      some (stEndC4 j, [(j.key, 101)],
        { log with handled := log.handled ++ [(ErrCode.appErrorHandlerCode, 0)] }) := by
  have hlt : (stAtC4 j 101).flushIndex < (stAtC4 j 101).queue.length := by
    simp [stAtC4]
  have h2 : fuel + 2 = (fuel + 1) + 1 := by omega
  rw [h2, flushLoop, dif_pos hlt]
  dsimp only
  have hjob : (stAtC4 j 101).queue.get ⟨(stAtC4 j 101).flushIndex, hlt⟩ = j :=
    by simp only [stAtC4, List.get_eq_getElem, List.getElem_replicate]
  rw [hjob, hactive, if_pos rfl, checkRecursive_trip]
  dsimp only
  rw [if_pos rfl]
  rw [flushLoop]
  have hnlt : ¬ ((stAtC4 j 101).flushIndex + 1 <
      ({ stAtC4 j 101 with flushIndex := (stAtC4 j 101).flushIndex + 1 } : SchedSt).queue.length) := by
    simp [stAtC4]
  rw [dif_neg hnlt]
  rfl

theorem flushLoop_c4_main (j : Job)
    (hact : j.act = JobAct.jobRequeueSelf) (har : j.allowRecurse = true)
    (hactive : j.active = true) :
    ∀ n i, i + n = 101 → ∀ fuel log,
      flushLoop (n + 2 + fuel) (stAtC4 j i) [(j.key, i)] log =
        some (stEndC4 j, [(j.key, 101)],
          { invoked := log.invoked ++ List.replicate n j.key,
            handled := log.handled ++ [(ErrCode.appErrorHandlerCode, 0)] }) := by
  intro n
  induction n with
  | zero =>
    intro i hi fuel log
    have hi' : i = 101 := by omega
    subst hi'
    have harith : 0 + 2 + fuel = fuel + 2 := by omega
    rw [harith, flushLoop_c4_trip j fuel log hactive]
    simp
  | succ n ih =>
    intro i hi fuel log
    have hle : i ≤ 100 := by omega
    have harith : (n + 1) + 2 + fuel = (n + 2 + fuel) + 1 := by omega
    rw [harith,
      flushLoop_c4_step j i (n + 2 + fuel) log hact har hactive
        (checkRecursive_bump j i hle),
      ih (i + 1) (by omega) fuel _]
    have hrep : log.invoked ++ [j.key] ++ List.replicate n j.key =
        log.invoked ++ List.replicate (n + 1) j.key := by
      rw [List.append_assoc, List.singleton_append, ← List.replicate_succ]
    simp only at hrep ⊢
    rw [hrep]

/-- `flushJobs` when the main loop completes and no post-flush work is
pending: the `finally` resets the indices, the post drain is a no-op,
and no recursive flush is needed. -/
theorem flushJobs_of_loop (fuel : Nat) (st : SchedSt) (seen seen' : List (Nat × Nat))
    (log log' : SchedLog) (st1 : SchedSt)
    (hloop : flushLoop (fuel + 1)
      { st with isFlushPending := false, isFlushing := true,
                queue := st.queue.mergeSort jobLE } seen log = some (st1, seen', log'))
    (hpend : st1.pendingPostFlushCbs = []) :
    flushJobs (fuel + 1) st seen log =
      some (.ok ({ st1 with flushIndex := 0, queue := [], isFlushing := false }, log')) := by
  rw [flushJobs]
  dsimp only
  rw [hloop]
  dsimp only
  unfold flushPostFlushCbs
  have hisEmpty : ({ st1 with flushIndex := 0, queue := ([] : List Job) } :
      SchedSt).pendingPostFlushCbs.isEmpty = true := by
    dsimp only
    rw [hpend]
    rfl
  rw [if_pos hisEmpty]
  dsimp only
  have hcond : ((({ st1 with
        flushIndex := 0,
        queue := ([] : List Job),
        isFlushing := false } : SchedSt)).queue.isEmpty &&
      (({ st1 with
        flushIndex := 0,
        queue := ([] : List Job),
        isFlushing := false } : SchedSt)).pendingPostFlushCbs.isEmpty) = true := by
    dsimp only
    rw [hpend]
    rfl
  rw [if_pos hcond]

/-- A job that calls `queueJob(self)` unconditionally on every run, with
`allowRecurse` so the dedup check lets the self-queue through. -/
def selfRequeueJob (key : Nat) (jid : Option Int) (p : Bool) : Job :=
  { key := key, jid := jid, pre := p, active := true, allowRecurse := true,
    act := JobAct.jobRequeueSelf }

/-- The scheduler state after a completed flush. -/
def schedStIdle : SchedSt :=
  { queue := [], flushIndex := 0, isFlushing := false, isFlushPending := false,
    pendingPostFlushCbs := [], activePostFlushCbs := none, postFlushIndex := 0 }

/-- C4.  In the dev build, a job that unconditionally re-queues itself
via `queueJob(self)` is invoked exactly 101 times within a single flush;
on the 102nd attempt the recursion guard routes an error to the external
error handler with code `APP_ERROR_HANDLER` and skips the job, and the
flush terminates normally (`.ok`, queue drained) for any sufficient
fuel. -/
theorem recursive_requeue_limit (key : Nat) (jid : Option Int) (p : Bool) (f : Nat) :
    flushJobs (104 + f) (mkSchedSt [selfRequeueJob key jid p]) [] ⟨[], []⟩ =
      some (.ok (schedStIdle,
        { invoked := List.replicate 101 key,
          handled := [(ErrCode.appErrorHandlerCode, 0)] })) := by
  set j := selfRequeueJob key jid p with hj
  have h1 : 104 + f = (103 + f) + 1 := by omega
  rw [h1]
  have hrec : ({ mkSchedSt [j] with
      isFlushPending := false,
      isFlushing := true,
      queue := (mkSchedSt [j]).queue.mergeSort jobLE } : SchedSt) = stAtC4 j 0 := by
    have hs : (mkSchedSt [j]).queue.mergeSort jobLE = [j] := List.mergeSort_singleton j
    rw [hs]
    rfl
  have hloop : flushLoop ((103 + f) + 1)
      ({ mkSchedSt [j] with
        isFlushPending := false,
        isFlushing := true,
        queue := (mkSchedSt [j]).queue.mergeSort jobLE } : SchedSt) [] ⟨[], []⟩ =
      some (stEndC4 j, [(j.key, 101)],
        { invoked := List.replicate 101 j.key,
          handled := [(ErrCode.appErrorHandlerCode, 0)] }) := by
    rw [hrec]
    rw [flushLoop_c4_first j (103 + f) _ rfl rfl rfl]
    have h2 : 103 + f = 100 + 2 + (f + 1) := by omega
    rw [h2, flushLoop_c4_main j rfl rfl rfl 100 1 (by omega) (f + 1) _]
    rfl
  rw [flushJobs_of_loop (103 + f) (mkSchedSt [j]) [] [(j.key, 101)] ⟨[], []⟩ _ (stEndC4 j)
    hloop rfl]
  rfl

/-! ### Error isolation in the `flushJobs` queue loop -/

/-- Jobs that neither grow nor shrink the queue when invoked. -/
def isStaticAct : JobAct → Bool
  | .jobNoop => true
  | .jobThrow _ => true
  | .jobRequeueSelf => false

/-- The keys the flush loop invokes, over a segment of the queue. -/
def invokedOf (l : List Job) : List Nat :=
  (l.filter (fun j => j.active)).map (fun j => j.key)

/-- The error-handler calls the flush loop performs, over a segment of
the queue: one `SCHEDULER`-coded call per active throwing job. -/
def handledOf (l : List Job) : List (ErrCode × Nat) :=
  l.filterMap (fun j =>
    if j.active then
      match j.act with
      | .jobThrow e => some (ErrCode.schedulerCode, e)
      | _ => none
    else none)

theorem checkRecursive_of_fresh (seen : List (Nat × Nat)) (j : Job)
    (h : seenGet seen j.key = none) :
    checkRecursiveUpdates seen j = (false, seenSet seen j.key 1, []) := by
  unfold checkRecursiveUpdates
  rw [h]

theorem seenGet_seenSet_ne (seen : List (Nat × Nat)) (k k' : Nat) (v : Nat) (h : k' ≠ k) :
    seenGet (seenSet seen k v) k' = seenGet seen k' := by
  induction seen with
  | nil =>
    simp only [seenSet, seenGet, List.find?_cons]
    have hk : decide (k = k') = false := by
      simp
      omega
    rw [hk]
  | cons p rest ih =>
    by_cases hp : p.1 = k
    · unfold seenSet
      rw [if_pos hp]
      unfold seenGet
      rw [List.find?_cons, List.find?_cons]
      have h1 : decide ((k, v).1 = k') = false := by
        simp
        omega
      have h2 : decide (p.1 = k') = false := by
        simp
        omega
      rw [h1, h2]
    · unfold seenSet
      rw [if_neg hp]
      unfold seenGet
      rw [List.find?_cons, List.find?_cons]
      by_cases hpk : p.1 = k'
      · simp [hpk]
      · have h2 : decide (p.1 = k') = false := by simp [hpk]
        rw [h2]
        exact ih

theorem invokedOf_cons_inactive (j : Job) (l : List Job) (h : j.active = false) :
    invokedOf (j :: l) = invokedOf l := by
  simp [invokedOf, List.filter_cons, h]

theorem invokedOf_cons_active (j : Job) (l : List Job) (h : j.active = true) :
    invokedOf (j :: l) = j.key :: invokedOf l := by
  simp [invokedOf, List.filter_cons, h]

theorem handledOf_cons_inactive (j : Job) (l : List Job) (h : j.active = false) :
    handledOf (j :: l) = handledOf l := by
  simp [handledOf, List.filterMap_cons, h]

theorem handledOf_cons_noop (j : Job) (l : List Job) (h : j.act = JobAct.jobNoop) :
    handledOf (j :: l) = handledOf l := by
  by_cases ha : j.active
  · simp [handledOf, List.filterMap_cons, h, ha]
  · simp [handledOf, List.filterMap_cons, ha]

theorem handledOf_cons_throw (j : Job) (l : List Job) (e : Nat)
    (h : j.act = JobAct.jobThrow e) (ha : j.active = true) :
    handledOf (j :: l) = (ErrCode.schedulerCode, e) :: handledOf l := by
  simp [handledOf, List.filterMap_cons, h, ha]

theorem flushLoop_static : ∀ (n : Nat) (st : SchedSt) (seen : List (Nat × Nat))
    (log : SchedLog) (fuel : Nat),
    st.queue.length - st.flushIndex = n →
    st.flushIndex ≤ st.queue.length →
    n + 1 ≤ fuel →
    (∀ jb ∈ st.queue.drop st.flushIndex, isStaticAct jb.act = true) →
    (∀ jb ∈ st.queue.drop st.flushIndex, jb.active = true → seenGet seen jb.key = none) →
    ((st.queue.drop st.flushIndex).map (fun j => j.key)).Nodup →
    ∃ seen', flushLoop fuel st seen log =
      some ({ st with flushIndex := st.queue.length }, seen',
        { invoked := log.invoked ++ invokedOf (st.queue.drop st.flushIndex),
          handled := log.handled ++ handledOf (st.queue.drop st.flushIndex) }) := by
  intro n
  induction n with
  | zero =>
    intro st seen log fuel hn hle hfuel _ _ _
    obtain ⟨fuel', rfl⟩ : ∃ fuel', fuel = fuel' + 1 := ⟨fuel - 1, by omega⟩
    rw [flushLoop, dif_neg (by omega)]
    refine ⟨seen, ?_⟩
    have hdrop : st.queue.drop st.flushIndex = [] := by
      apply List.drop_eq_nil_of_le
      omega
    rw [hdrop]
    have hIdx : st.queue.length = st.flushIndex := by omega
    rw [hIdx]
    simp [invokedOf, handledOf]
  | succ n ih =>
    intro st seen log fuel hn hle hfuel hstatic hfresh hnodup
    have hlt : st.flushIndex < st.queue.length := by omega
    obtain ⟨fuel', rfl⟩ : ∃ fuel', fuel = fuel' + 1 := ⟨fuel - 1, by omega⟩
    rw [flushLoop, dif_pos hlt]
    dsimp only
    have hdropc : st.queue.drop st.flushIndex =
        st.queue.get ⟨st.flushIndex, hlt⟩ :: st.queue.drop (st.flushIndex + 1) := by
      rw [List.get_eq_getElem]
      exact List.drop_eq_getElem_cons hlt
    set job := st.queue.get ⟨st.flushIndex, hlt⟩ with hjobdef
    have hjobmem : job ∈ st.queue.drop st.flushIndex := by
      rw [hdropc]
      exact List.mem_cons_self _ _
    have hkeynotin : job.key ∉ (st.queue.drop (st.flushIndex + 1)).map (fun j => j.key) := by
      rw [hdropc] at hnodup
      simp only [List.map_cons, List.nodup_cons] at hnodup
      exact hnodup.1
    have htail_static : ∀ jb ∈ st.queue.drop (st.flushIndex + 1), isStaticAct jb.act = true :=
      fun jb hjb => hstatic jb (by rw [hdropc]; exact List.mem_cons_of_mem _ hjb)
    have htail_nodup : ((st.queue.drop (st.flushIndex + 1)).map (fun j => j.key)).Nodup := by
      rw [hdropc] at hnodup
      simp only [List.map_cons, List.nodup_cons] at hnodup
      exact hnodup.2
    cases hact : job.active with
    | false =>
      rw [if_neg (by simp)]
      obtain ⟨seen', hrun⟩ := ih { st with flushIndex := st.flushIndex + 1 } seen log fuel'
        (by dsimp only; omega) (by dsimp only; omega) (by omega)
        htail_static
        (fun jb hjb ha => hfresh jb (by rw [hdropc]; exact List.mem_cons_of_mem _ hjb) ha)
        htail_nodup
      refine ⟨seen', ?_⟩
      rw [hrun, hdropc, invokedOf_cons_inactive _ _ hact, handledOf_cons_inactive _ _ hact]
    | true =>
      rw [if_pos rfl]
      have hfr : seenGet seen job.key = none := hfresh job hjobmem hact
      rw [checkRecursive_of_fresh seen job hfr]
      dsimp only
      rw [if_neg (by simp)]
      have htail_fresh : ∀ jb ∈ st.queue.drop (st.flushIndex + 1), jb.active = true →
          seenGet (seenSet seen job.key 1) jb.key = none := by
        intro jb hjb ha
        have hne : jb.key ≠ job.key := by
          intro hc
          exact hkeynotin (by rw [← hc]; exact List.mem_map_of_mem _ hjb)
        rw [seenGet_seenSet_ne seen job.key jb.key 1 hne]
        exact hfresh jb (by rw [hdropc]; exact List.mem_cons_of_mem _ hjb) ha
      have hsa := hstatic job hjobmem
      cases hja : job.act with
      | jobRequeueSelf =>
        rw [hja] at hsa
        simp [isStaticAct] at hsa
      | jobNoop =>
        have hcall : callWithErrorHandling st job ErrCode.schedulerCode
            { log with invoked := log.invoked ++ [job.key] } =
            (st, { log with invoked := log.invoked ++ [job.key] }) := by
          unfold callWithErrorHandling execJob
          rw [hja]
        rw [hcall]
        dsimp only
        obtain ⟨seen', hrun⟩ := ih { st with flushIndex := st.flushIndex + 1 }
          (seenSet seen job.key 1) { log with invoked := log.invoked ++ [job.key] } fuel'
          (by dsimp only; omega) (by dsimp only; omega) (by omega)
          htail_static htail_fresh htail_nodup
        refine ⟨seen', ?_⟩
        rw [hrun, hdropc, invokedOf_cons_active _ _ hact, handledOf_cons_noop _ _ hja]
        dsimp only
        rw [List.append_assoc, List.singleton_append]
      | jobThrow e =>
        have hcall : callWithErrorHandling st job ErrCode.schedulerCode
            { log with invoked := log.invoked ++ [job.key] } =
            (st, { invoked := log.invoked ++ [job.key],
                   handled := log.handled ++ [(ErrCode.schedulerCode, e)] }) := by
          unfold callWithErrorHandling execJob
          rw [hja]
        rw [hcall]
        dsimp only
        obtain ⟨seen', hrun⟩ := ih { st with flushIndex := st.flushIndex + 1 }
          (seenSet seen job.key 1)
          { invoked := log.invoked ++ [job.key],
            handled := log.handled ++ [(ErrCode.schedulerCode, e)] } fuel'
          (by dsimp only; omega) (by dsimp only; omega) (by omega)
          htail_static htail_fresh htail_nodup
        refine ⟨seen', ?_⟩
        rw [hrun, hdropc, invokedOf_cons_active _ _ hact, handledOf_cons_throw _ _ e hja hact]
        dsimp only
        rw [List.append_assoc, List.singleton_append, List.append_assoc, List.singleton_append]

/-- C6.  For a queue of jobs that return or throw, the whole flush
completes normally (`.ok`): every active job is invoked in sorted order
even when earlier jobs throw, and each throwing active job's error is
routed to the external error handler with code `SCHEDULER` instead of
propagating.  (Distinct keys keep the dev recursion guard out of the
way; the fuel is any value covering the queue.) -/
theorem flushJobs_isolates_job_errors (q : List Job) (f : Nat)
    (hstatic : ∀ jb ∈ q, isStaticAct jb.act = true)
    (hnodup : (q.map (fun j => j.key)).Nodup) :
    flushJobs (q.length + 1 + f) (mkSchedSt q) [] ⟨[], []⟩ =
      some (.ok (schedStIdle,
        { invoked := invokedOf (q.mergeSort jobLE),
          handled := handledOf (q.mergeSort jobLE) })) := by
  have h1 : q.length + 1 + f = (q.length + f) + 1 := by omega
  rw [h1]
  have hperm : ((mkSchedSt q).queue.mergeSort jobLE).Perm q := List.mergeSort_perm _ jobLE
  obtain ⟨seen', hloop⟩ := flushLoop_static q.length
    ({ mkSchedSt q with
      isFlushPending := false,
      isFlushing := true,
      queue := (mkSchedSt q).queue.mergeSort jobLE } : SchedSt)
    [] ⟨[], []⟩ ((q.length + f) + 1)
    (by simp [mkSchedSt, List.length_mergeSort])
    (by simp [mkSchedSt])
    (by omega)
    (by
      intro jb hjb
      apply hstatic
      refine hperm.mem_iff.mp ?_
      simpa [mkSchedSt] using hjb)
    (by
      intro jb _ _
      rfl)
    (by
      simp only [mkSchedSt]
      rw [List.drop_zero]
      exact ((hperm.map (fun j => j.key)).nodup_iff).mpr hnodup)
  rw [flushJobs_of_loop (q.length + f) (mkSchedSt q) [] seen' ⟨[], []⟩ _ _ hloop rfl]
  rfl

def throwJob6 : Job :=
  { key := 1, jid := none, pre := false, active := true, allowRecurse := false,
    act := JobAct.jobThrow 42 }

def noopJob6 : Job :=
  { key := 2, jid := none, pre := false, active := true, allowRecurse := false,
    act := JobAct.jobNoop }

/-- C6 witness: a throwing job followed by a normal job — the error is
handed to the error handler under `SCHEDULER` and the second job still
runs. -/
theorem flushJobs_isolates_job_errors_witness :
    flushJobs ([throwJob6, noopJob6].length + 1 + 0) (mkSchedSt [throwJob6, noopJob6]) []
        ⟨[], []⟩ =
      some (.ok (schedStIdle,
        { invoked := invokedOf ([throwJob6, noopJob6].mergeSort jobLE),
          handled := handledOf ([throwJob6, noopJob6].mergeSort jobLE) })) :=
  flushJobs_isolates_job_errors [throwJob6, noopJob6] 0 (by decide) (by decide)

/-! ### Errors escape the post- and pre-flush drain loops -/

theorem postLoop_hits_throw : ∀ (l1 front : List Job) (st : SchedSt)
    (seen : List (Nat × Nat)) (log : SchedLog) (bad : Job) (l2 : List Job) (e : Nat)
    (fuel : Nat),
    st.activePostFlushCbs = some (front ++ l1 ++ bad :: l2) →
    st.postFlushIndex = front.length →
    l1.length + 1 ≤ fuel →
    (∀ c ∈ l1, c.act = JobAct.jobNoop) →
    (∀ c ∈ l1 ++ [bad], seenGet seen c.key = none) →
    ((l1 ++ [bad]).map (fun j => j.key)).Nodup →
    bad.act = JobAct.jobThrow e →
    postLoop fuel st seen log =
      some (.error (e, { st with postFlushIndex := front.length + l1.length },
        { log with invoked := log.invoked ++ l1.map (fun j => j.key) ++ [bad.key] })) := by
  intro l1
  induction l1 with
  | nil =>
    intro front st seen log bad l2 e fuel hacts hidx hfuel _ hfresh _ hbad
    obtain ⟨f, rfl⟩ : ∃ f, fuel = f + 1 := ⟨fuel - 1, by omega⟩
    rw [postLoop]
    split
    next hnone =>
      rw [hacts] at hnone
      exact Option.noConfusion hnone
    next acts hsome =>
      rw [hacts] at hsome
      have hacts' : acts = front ++ [] ++ bad :: l2 := (Option.some.inj hsome).symm
      subst hacts'
      have hlt : st.postFlushIndex < (front ++ [] ++ bad :: l2).length := by
        simp [hidx]
      rw [dif_pos hlt]
      dsimp only
      have hq : (front ++ bad :: l2)[st.postFlushIndex]? = some bad := by
        rw [List.getElem?_append]
        simp [hidx]
      have hcb : (front ++ [] ++ bad :: l2).get ⟨st.postFlushIndex, hlt⟩ = bad := by
        rw [List.get_eq_getElem]
        obtain ⟨h2, heq⟩ := List.getElem?_eq_some.mp (by simpa using hq)
        simpa using heq
      rw [hcb]
      rw [checkRecursive_of_fresh seen bad (hfresh bad (by simp))]
      dsimp only
      rw [if_neg (by simp)]
      unfold execJob
      rw [hbad]
      dsimp only
      rw [← hidx]
      simp
  | cons c l1' ih =>
    intro front st seen log bad l2 e fuel hacts hidx hfuel hnoop hfresh hnodup hbad
    obtain ⟨f, rfl⟩ : ∃ f, fuel = f + 1 := ⟨fuel - 1, by omega⟩
    rw [postLoop]
    split
    next hnone =>
      rw [hacts] at hnone
      exact Option.noConfusion hnone
    next acts hsome =>
      rw [hacts] at hsome
      have hacts' : acts = front ++ (c :: l1') ++ bad :: l2 := (Option.some.inj hsome).symm
      subst hacts'
      have hlt : st.postFlushIndex < (front ++ (c :: l1') ++ bad :: l2).length := by
        simp [hidx]
      rw [dif_pos hlt]
      dsimp only
      have hq : (front ++ (c :: (l1' ++ bad :: l2)))[st.postFlushIndex]? = some c := by
        rw [List.getElem?_append]
        simp [hidx]
      have hcb : (front ++ (c :: l1') ++ bad :: l2).get ⟨st.postFlushIndex, hlt⟩ = c := by
        rw [List.get_eq_getElem]
        obtain ⟨h2, heq⟩ := List.getElem?_eq_some.mp (by simpa using hq)
        simpa using heq
      rw [hcb]
      rw [checkRecursive_of_fresh seen c (hfresh c (by simp))]
      dsimp only
      rw [if_neg (by simp)]
      have hnoopc : c.act = JobAct.jobNoop := hnoop c (List.mem_cons_self _ _)
      unfold execJob
      rw [hnoopc]
      dsimp only
      have hkeyne : ∀ x ∈ l1' ++ [bad], x.key ≠ c.key := by
        intro x hx hc
        simp only [List.cons_append, List.map_cons, List.nodup_cons] at hnodup
        exact hnodup.1 (by rw [← hc]; exact List.mem_map_of_mem _ hx)
      have hrun := ih (front ++ [c]) { st with postFlushIndex := st.postFlushIndex + 1 }
        (seenSet seen c.key 1) { log with invoked := log.invoked ++ [c.key] } bad l2 e f
        (by
          dsimp only
          exact hacts.trans (congrArg some (by simp)))
        (by simp [hidx])
        (by
          simp only [List.length_cons] at hfuel
          omega)
        (fun x hx => hnoop x (List.mem_cons_of_mem _ hx))
        (by
          intro x hx
          rw [seenGet_seenSet_ne seen c.key x.key 1 (hkeyne x hx)]
          exact hfresh x (by
            rcases List.mem_append.mp hx with h | h
            · exact List.mem_append.mpr (Or.inl (List.mem_cons_of_mem _ h))
            · exact List.mem_append.mpr (Or.inr h)))
        (by
          simp only [List.cons_append, List.map_cons, List.nodup_cons] at hnodup
          exact hnodup.2)
        hbad
      rw [hrun]
      have hidx2 : (front ++ [c]).length + l1'.length = front.length + (c :: l1').length := by
        simp
        omega
      rw [hidx2]
      have hinv : log.invoked ++ [c.key] ++ l1'.map (fun j => j.key) ++ [bad.key] =
          log.invoked ++ (c :: l1').map (fun j => j.key) ++ [bad.key] := by
        simp
      rw [hinv]

theorem flushPostFlushCbs_error_propagates (st : SchedSt) (l1 l2 : List Job) (bad : Job)
    (e : Nat) (fuel : Nat) (log : SchedLog)
    (hpend : st.pendingPostFlushCbs ≠ [])
    (hactive : st.activePostFlushCbs = none)
    (hdedup : (dedupKeys st.pendingPostFlushCbs).mergeSort postLE = l1 ++ bad :: l2)
    (hnoop : ∀ c ∈ l1, c.act = JobAct.jobNoop)
    (hbad : bad.act = JobAct.jobThrow e)
    (hnodup : ((l1 ++ [bad]).map (fun j => j.key)).Nodup)
    (hfuel : l1.length + 1 ≤ fuel) :
    flushPostFlushCbs fuel st [] log =
      some (.error (e,
        { st with
          pendingPostFlushCbs := [],
          activePostFlushCbs := some (l1 ++ bad :: l2),
          postFlushIndex := l1.length },
        { log with invoked := log.invoked ++ l1.map (fun j => j.key) ++ [bad.key] })) := by
  unfold flushPostFlushCbs
  rw [if_neg (by simp [hpend])]
  dsimp only
  split
  next l hsome =>
    rw [hactive] at hsome
    exact Option.noConfusion hsome
  next hnone =>
    rw [hdedup]
    have hrun := postLoop_hits_throw l1 []
      ({ st with
        pendingPostFlushCbs := [],
        activePostFlushCbs := some (l1 ++ bad :: l2),
        postFlushIndex := 0 } : SchedSt)
      [] log bad l2 e fuel
      (by dsimp only; exact congrArg some (by simp))
      (by dsimp only; rfl)
      hfuel
      hnoop
      (by intro c _; rfl)
      hnodup
      hbad
    rw [hrun]
    have hz : ([] : List Job).length + l1.length = l1.length := by simp
    rw [hz]

def postThrowCb : Job :=
  { key := 1, jid := none, pre := false, active := true, allowRecurse := false,
    act := JobAct.jobThrow 42 }

def postNoopCb : Job :=
  { key := 2, jid := none, pre := false, active := true, allowRecurse := false,
    act := JobAct.jobNoop }

def preThrowCb : Job :=
  { key := 1, jid := none, pre := true, active := true, allowRecurse := false,
    act := JobAct.jobThrow 9 }

def preNoopCb : Job :=
  { key := 2, jid := none, pre := true, active := true, allowRecurse := false,
    act := JobAct.jobNoop }

/-- C7, counterexample.  A post-flush drain whose first callback throws:
`flushPostFlushCbs` returns the error to its caller (`.error 42`), the
external error handler is never invoked (`handled = []`), and the second
callback is never run (`invoked = [1]`) — against "surfaced through the
error handler and the drain loop proceeds; no scheduler-level error
propagates out". -/
theorem post_flush_error_not_handled :
    flushPostFlushCbs 10
        { mkSchedSt [] with pendingPostFlushCbs := [postThrowCb, postNoopCb] } [] ⟨[], []⟩ =
      some (.error (42,
        { queue := [], flushIndex := 0, isFlushing := false, isFlushPending := true,
          pendingPostFlushCbs := [], activePostFlushCbs := some [postThrowCb, postNoopCb],
          postFlushIndex := 0 },
        { invoked := [1], handled := [] })) := by
  have hs : ([postThrowCb, postNoopCb] : List Job).mergeSort postLE =
      [postThrowCb, postNoopCb] :=
    List.mergeSort_of_sorted (by decide)
  have h := flushPostFlushCbs_error_propagates
    ({ mkSchedSt [] with pendingPostFlushCbs := [postThrowCb, postNoopCb] }) [] [postNoopCb]
    postThrowCb 42 10 ⟨[], []⟩
    (by decide)
    rfl
    (by
      rw [show dedupKeys [postThrowCb, postNoopCb] = [postThrowCb, postNoopCb] from rfl, hs]
      simp)
    (by intro c hc; cases hc)
    rfl
    (by decide)
    (by decide)
  simpa [mkSchedSt] using h

/-- C7, amended.  Only the main `flushJobs` queue loop runs its jobs
under the error-handling wrapper (see the C6 result).  Callbacks
executed by `flushPostFlushCbs` are invoked directly: when the first
throwing callback is reached, the error propagates to the caller of the
drain loop, the external error handler is not invoked for it
(`handled` is unchanged), and the remaining callbacks are skipped.
`flushPreFlushCbs` invokes its callbacks bare in the same way (second
conjunct, on a concrete pre-flush drain). -/
theorem drain_callbacks_error_propagates (st : SchedSt) (l1 l2 : List Job) (bad : Job)
    (e fuel : Nat) (log : SchedLog)
    (hpend : st.pendingPostFlushCbs ≠ [])
    (hactive : st.activePostFlushCbs = none)
    (hdedup : (dedupKeys st.pendingPostFlushCbs).mergeSort postLE = l1 ++ bad :: l2)
    (hnoop : ∀ c ∈ l1, c.act = JobAct.jobNoop)
    (hbad : bad.act = JobAct.jobThrow e)
    (hnodup : ((l1 ++ [bad]).map (fun j => j.key)).Nodup)
    (hfuel : l1.length + 1 ≤ fuel) :
    (flushPostFlushCbs fuel st [] log =
      some (.error (e,
        { st with
          pendingPostFlushCbs := [],
          activePostFlushCbs := some (l1 ++ bad :: l2),
          postFlushIndex := l1.length },
        { log with invoked := log.invoked ++ l1.map (fun j => j.key) ++ [bad.key] }))) ∧
    flushPreFlushCbs 10 { mkSchedSt [preThrowCb, preNoopCb] with isFlushPending := false }
        none ⟨[], []⟩ =
      some (.error (9, { mkSchedSt [preNoopCb] with isFlushPending := false },
        { invoked := [1], handled := [] })) := by
  refine ⟨flushPostFlushCbs_error_propagates st l1 l2 bad e fuel log hpend hactive hdedup
    hnoop hbad hnodup hfuel, ?_⟩
  rfl

/-- C7 witness: the amended theorem applied to a concrete two-callback
post drain. -/
theorem drain_callbacks_error_propagates_witness :
    (flushPostFlushCbs 10
        { mkSchedSt [] with pendingPostFlushCbs := [postThrowCb, postNoopCb] } [] ⟨[], []⟩ =
      some (.error (42,
        { ({ mkSchedSt [] with pendingPostFlushCbs := [postThrowCb, postNoopCb] } : SchedSt) with
          pendingPostFlushCbs := [],
          activePostFlushCbs := some (([] : List Job) ++ postThrowCb :: [postNoopCb]),
          postFlushIndex := ([] : List Job).length },
        { (⟨[], []⟩ : SchedLog) with
          invoked := ([] : List Nat) ++ ([] : List Job).map (fun j => j.key) ++
            [postThrowCb.key] }))) ∧
    flushPreFlushCbs 10 { mkSchedSt [preThrowCb, preNoopCb] with isFlushPending := false }
        none ⟨[], []⟩ =
      some (.error (9, { mkSchedSt [preNoopCb] with isFlushPending := false },
        { invoked := [1], handled := [] })) :=
  drain_callbacks_error_propagates
    ({ mkSchedSt [] with pendingPostFlushCbs := [postThrowCb, postNoopCb] }) [] [postNoopCb]
    postThrowCb 42 10 ⟨[], []⟩
    (by decide)
    rfl
    (by
      rw [show dedupKeys [postThrowCb, postNoopCb] = [postThrowCb, postNoopCb] from rfl,
        List.mergeSort_of_sorted (by decide)]
      simp)
    (by intro c hc; cases hc)
    rfl
    (by decide)
    (by decide)
